import Mathlib

/-!
shell-ai: the streaming terminal renderer and the event-stream decode loop.

A shallow embedding of `main.go`: `renderInline`, `termRenderer.renderLine`,
`termRenderer.flush` / `write` / `close`, and the decode loop of `streamResponse`.

* A Go `string` is a sequence of bytes: `GoString := List UInt8`.
* Writing to standard output and flipping `inCode` are recorded in a trace of `Event`s, in
  program order; the printed bytes are `printed trace`.
* Every Go `for` loop is a function that recurses on a bound of its number of iterations
  (`fuel`); the callers pass a bound that the loop never exhausts (proved below).
-/

namespace ShellAI

/-! ## Go strings and the library functions the program calls -/

/-- A Go string: an immutable sequence of bytes. -/
abbrev GoString := List UInt8

/-- The bytes (UTF-8) of a string literal of the source. -/
def str (s : String) : GoString := s.data.flatMap String.utf8EncodeChar

/-- Go `strings.HasPrefix(s, p)`. -/
def HasPrefix (s p : GoString) : Bool := p.isPrefixOf s

/-- Go `strings.TrimPrefix(s, p)`. -/
def TrimPrefix (s p : GoString) : GoString := if HasPrefix s p then s.drop p.length else s

/-- Go `strings.Index(s, substr)`: the index of the first occurrence of `substr` in `s`;
`none` stands for `-1`. -/
def Index (s substr : GoString) : Option Nat :=
  if substr.isPrefixOf s then some 0
  else match s with
    | [] => none
    | _ :: t => (Index t substr).map (· + 1)

/-- Go `strings.Repeat(s, count)`. -/
def Repeat (s : GoString) : Nat → GoString
  | 0 => []
  | count + 1 => s ++ Repeat s count

/-- The UTF-8 encodings of the runes for which Go `unicode.IsSpace` holds:
`\t \n \v \f \r`, space, U+0085, U+00A0, U+1680, U+2000..U+200A, U+2028, U+2029, U+202F,
U+205F, U+3000. -/
def spaceRunes : List GoString :=
  [[0x09], [0x0A], [0x0B], [0x0C], [0x0D], [0x20], [0xC2, 0x85], [0xC2, 0xA0],
   [0xE1, 0x9A, 0x80],
   [0xE2, 0x80, 0x80], [0xE2, 0x80, 0x81], [0xE2, 0x80, 0x82], [0xE2, 0x80, 0x83],
   [0xE2, 0x80, 0x84], [0xE2, 0x80, 0x85], [0xE2, 0x80, 0x86], [0xE2, 0x80, 0x87],
   [0xE2, 0x80, 0x88], [0xE2, 0x80, 0x89], [0xE2, 0x80, 0x8A],
   [0xE2, 0x80, 0xA8], [0xE2, 0x80, 0xA9], [0xE2, 0x80, 0xAF], [0xE2, 0x81, 0x9F],
   [0xE3, 0x80, 0x80]]

/-- Strip from the front of `s` every leading byte sequence that is listed in `encs`
(at most `fuel` of them). -/
def trimLeading (encs : List GoString) : Nat → GoString → GoString
  | 0, s => s
  | fuel + 1, s =>
    match encs.find? (fun e => e.isPrefixOf s) with
    | some e => trimLeading encs fuel (s.drop e.length)
    | none => s

/-- Go `strings.TrimSpace(s)`: `s` without its leading and trailing white-space runes.
Trailing runes are stripped from the reversed string against the reversed encodings. -/
def TrimSpace (s : GoString) : GoString :=
  let l := trimLeading spaceRunes s.length s
  (trimLeading (spaceRunes.map List.reverse) l.length l.reverse).reverse

/-! ## Constants of the program -/

/-- Go `type mode int` with its three constants. -/
inductive mode
  | modeConfirm
  | modeExplain
  | modeYolo
  deriving DecidableEq, Repr

/-- The constant `ansiReset = "\033[0m"`. -/
def ansiReset : GoString := str "\x1b[0m"
/-- The constant `ansiBold = "\033[1m"`. -/
def ansiBold : GoString := str "\x1b[1m"
/-- The constant `ansiDim = "\033[2m"`. -/
def ansiDim : GoString := str "\x1b[2m"
/-- The constant `ansiCyan = "\033[36m"`. -/
def ansiCyan : GoString := str "\x1b[36m"

/-! ## Observable effects -/

/-- One effect of the renderer: a call that prints `s` to standard output
(`fmt.Print`, `fmt.Println`), or an execution of `r.inCode = !r.inCode`. -/
inductive Event
  | print (s : GoString)
  | toggle
  deriving DecidableEq, Repr

/-- The bytes a trace writes to standard output. -/
def printed : List Event → GoString
  | [] => []
  | Event.print s :: es => s ++ printed es
  | Event.toggle :: es => printed es

/-- The number of times a trace flips `inCode`. -/
def toggles : List Event → Nat
  | [] => 0
  | Event.print _ :: es => toggles es
  | Event.toggle :: es => toggles es + 1

/-! ## `renderInline` -/

/-- Go slice expression `s[i:j]`. -/
def slice (s : GoString) (i j : Nat) : GoString := (s.take j).drop i

/-- The `for i < len(s)` loop of `renderInline`, with the scan index `i` and the builder
`out` as arguments. `fuel` bounds the iterations still to run and the depth of the
recursive calls. `s[i]?` is the byte `s[i]`. -/
def renderInlineLoop : Nat → GoString → Nat → GoString → GoString
  | 0, _, _, out => out
  | fuel + 1, s, i, out =>
    if i < s.length then
      -- if i+1 < len(s) && s[i] == '*' && s[i+1] == '*' { end := strings.Index(s[i+2:], "**")
      let bold : Option Nat :=
        if i + 1 < s.length ∧ s[i]? = some 42 ∧ s[i + 1]? = some 42 then
          Index (s.drop (i + 2)) (str "**")
        else none
      match bold with
      | some e =>
        renderInlineLoop fuel s (i + 2 + e + 2)
          (out ++ ansiBold ++ renderInlineLoop fuel (slice s (i + 2) (i + 2 + e)) 0 []
            ++ ansiReset)
      | none =>
        -- if s[i] == '`' { end := strings.Index(s[i+1:], "`")
        let code : Option Nat :=
          if s[i]? = some 96 then Index (s.drop (i + 1)) (str "`") else none
        match code with
        | some e =>
          renderInlineLoop fuel s (i + 1 + e + 1)
            (out ++ ansiCyan ++ slice s (i + 1) (i + 1 + e) ++ ansiReset)
        | none => renderInlineLoop fuel s (i + 1) (out ++ (s[i]?).toList)
    else out

/-- Go `renderInline(s)`. The loop runs at most `len(s)` iterations. -/
def renderInline (s : GoString) : GoString := renderInlineLoop s.length s 0 []

/-! ## `termRenderer` -/

/-- Go `type termRenderer struct { buf strings.Builder; inCode bool }`. -/
structure termRenderer where
  buf : GoString
  inCode : Bool
  deriving DecidableEq, Repr

/-- The zero value `&termRenderer{}`. -/
def termRenderer.fresh : termRenderer := { buf := [], inCode := false }

/-- The loop `for level := 3; level >= 1; level--` of `renderLine`, entered at `level`:
the text printed for the first heading marker that matches, `none` when no level matches. -/
def headingLoop (trimmed : GoString) : Nat → Option GoString
  | 0 => none
  | level + 1 =>
    let pfx := Repeat (str "#") (level + 1) ++ str " "
    if HasPrefix trimmed pfx then some (ansiBold ++ trimmed.drop pfx.length ++ ansiReset)
    else headingLoop trimmed level

/-- Go `(r *termRenderer) renderLine(line)`. -/
def termRenderer.renderLine (r : termRenderer) (line : GoString) :
    termRenderer × List Event :=
  let trimmed := TrimSpace line
  if HasPrefix trimmed (str "```") then
    ({ r with inCode := !r.inCode }, [Event.toggle])
  else if r.inCode then
    (r, [Event.print (str "  " ++ ansiDim ++ line ++ ansiReset)])
  else
    match headingLoop trimmed 3 with
    | some text => (r, [Event.print text])
    | none => (r, [Event.print (renderInline line)])

/-- The `for` loop of `flush` on the local `content`: renders every complete line, each
followed by `fmt.Println()`; returns the renderer, the rest of `content`, and the trace. -/
def flushLoop : Nat → termRenderer → GoString → termRenderer × GoString × List Event
  | 0, r, content => (r, content, [])
  | fuel + 1, r, content =>
    match Index content (str "\n") with
    | none => (r, content, [])
    | some idx =>
      let (r1, ev1) := r.renderLine (slice content 0 idx)
      let (r2, content2, ev2) := flushLoop fuel r1 (content.drop (idx + 1))
      (r2, content2, ev1 ++ [Event.print (str "\n")] ++ ev2)

/-- Go `(r *termRenderer) flush(final)`. -/
def termRenderer.flush (r : termRenderer) (final : Bool) : termRenderer × List Event :=
  let content := r.buf
  let (r1, content1, ev) := flushLoop (content.length + 1) r content
  let r2 := { r1 with buf := [] }
  if final && content1 != [] then
    let (r3, ev3) := r2.renderLine content1
    (r3, ev ++ ev3)
  else
    ({ r2 with buf := r2.buf ++ content1 }, ev)

/-- Go `(r *termRenderer) write(text)`. -/
def termRenderer.write (r : termRenderer) (text : GoString) : termRenderer × List Event :=
  termRenderer.flush { r with buf := r.buf ++ text } false

/-- Go `(r *termRenderer) close()`. -/
def termRenderer.close (r : termRenderer) : termRenderer × List Event :=
  r.flush true

/-- A call on a renderer. -/
inductive Call
  | write (text : GoString)
  | close
  deriving DecidableEq, Repr

/-- Run a sequence of calls on a renderer, in order. -/
def run : termRenderer → List Call → termRenderer × List Event
  | r, [] => (r, [])
  | r, Call.write text :: calls =>
    let (r1, ev1) := r.write text
    let (r2, ev2) := run r1 calls
    (r2, ev1 ++ ev2)
  | r, Call.close :: calls =>
    let (r1, ev1) := r.close
    let (r2, ev2) := run r1 calls
    (r2, ev1 ++ ev2)

/-- The opening-bold test of `renderInline` at index `i`, with the result of the search for
the closing marker. -/
def boldAt (s : GoString) (i : Nat) : Option Nat :=
  if i + 1 < s.length ∧ s[i]? = some 42 ∧ s[i + 1]? = some 42 then
    Index (s.drop (i + 2)) (str "**")
  else none

/-- The opening-backtick test of `renderInline` at index `i`, with the result of the search
for the closing backtick. -/
def codeAt (s : GoString) (i : Nat) : Option Nat :=
  if s[i]? = some 96 then Index (s.drop (i + 1)) (str "`") else none

/-! ## Specification-level views used by the proofs -/

/-- The flag `inCode` after `renderLine(line)` is called with `inCode = ic`. -/
def lineFlag (ic : Bool) (line : GoString) : Bool :=
  (termRenderer.renderLine { buf := [], inCode := ic } line).1.inCode

/-- The trace of `renderLine(line)` called with `inCode = ic`. -/
def lineTrace (ic : Bool) (line : GoString) : List Event :=
  (termRenderer.renderLine { buf := [], inCode := ic } line).2

/-- The complete (newline-terminated) lines of a text, without their newline, and the
unterminated rest after the last newline. -/
def splitLines : GoString → List GoString × GoString
  | [] => ([], [])
  | c :: s =>
    if c = 10 then ([] :: (splitLines s).1, (splitLines s).2)
    else match (splitLines s).1 with
      | [] => ([], c :: (splitLines s).2)
      | l :: ls => ((c :: l) :: ls, (splitLines s).2)

/-- Rendering a list of complete lines in order, each followed by a newline: the final
flag and the trace. -/
def renderLines : Bool → List GoString → Bool × List Event
  | ic, [] => (ic, [])
  | ic, l :: ls =>
    ((renderLines (lineFlag ic l) ls).1,
      lineTrace ic l ++ [Event.print (str "\n")] ++ (renderLines (lineFlag ic l) ls).2)

/-- The part of a text that follows its last newline (all of it when there is none). -/
def afterLastNewline (s : GoString) : GoString :=
  (s.reverse.takeWhile (fun c => c != 10)).reverse

/-! ## The decode loop of `streamResponse` -/

/-- One element of `parts`: the field `Text string` with tag `json:"text"`. -/
structure Part where
  Text : GoString
  deriving DecidableEq, Repr

/-- The field `Content`: `struct { Parts []struct{ Text string } }`. -/
structure Content where
  Parts : List Part
  deriving DecidableEq, Repr

/-- One element of `Candidates`: `struct { Content struct{...} }`. -/
structure Candidate where
  Content : Content
  deriving DecidableEq, Repr

/-- The local `chunk` of `streamResponse` after a successful `json.Unmarshal`. -/
structure Chunk where
  Candidates : List Candidate
  deriving DecidableEq, Repr

/-- The `bufio.Scanner` over the response body, as the program observes it: the lines for
which `scanner.Scan()` returns true (the text `scanner.Text()` of each), and the value of
`scanner.Err()` once `Scan()` has returned false (`none` is `nil`: the input ended
normally; `some msg` is a read error). -/
structure Scanner where
  lines : List GoString
  err : Option GoString
  deriving DecidableEq, Repr

/-- The body of the `for scanner.Scan()` loop of `streamResponse` for one line.
`unmarshal data` is `json.Unmarshal([]byte(data), &chunk)`: `none` when it returns an
error, `some chunk` with the decoded value otherwise. -/
def decodeLine (unmarshal : GoString → Option Chunk) (full : GoString)
    (renderer : Option termRenderer) (line : GoString) :
    GoString × Option termRenderer × List Event :=
  if !HasPrefix line (str "data: ") then (full, renderer, [])
  else
    let data := TrimPrefix line (str "data: ")
    match unmarshal data with
    | none => (full, renderer, [])
    | some chunk =>
      match chunk.Candidates with
      | [] => (full, renderer, [])
      | cand0 :: _ =>
        match cand0.Content.Parts with
        | [] => (full, renderer, [])
        | part0 :: _ =>
          let text := part0.Text
          match renderer with
          | some r => (full ++ text, some (r.write text).1, (r.write text).2)
          | none => (full ++ text, none, [Event.print text])

/-- The loop `for scanner.Scan() { ... }` of `streamResponse` over the scanned lines. -/
def decodeLoop (unmarshal : GoString → Option Chunk) :
    GoString → Option termRenderer → List GoString →
      GoString × Option termRenderer × List Event
  | full, renderer, [] => (full, renderer, [])
  | full, renderer, line :: more =>
    let step := decodeLine unmarshal full renderer line
    let tail := decodeLoop unmarshal step.1 step.2.1 more
    (tail.1, tail.2.1, step.2.2 ++ tail.2.2)

/-- What `streamResponse` leaves behind: its two return values, the final value of its
local `renderer`, and the trace of its effects on standard output. -/
structure Response where
  text : GoString
  err : Option GoString
  renderer : Option termRenderer
  trace : List Event
  deriving DecidableEq, Repr

/-- Go `streamResponse(cfg, systemPrompt, question, m)` from the declaration of `full`
on (lines 268-311): the part that runs once the HTTP request has returned status 200 with
the body `body`. The request itself is outside the model. -/
def streamResponse (unmarshal : GoString → Option Chunk) (m : mode) (body : Scanner) :
    Response :=
  let renderer : Option termRenderer :=
    if m = mode.modeExplain then some termRenderer.fresh else none
  let loop := decodeLoop unmarshal [] renderer body.lines
  match loop.2.1 with
  | some r =>
    { text := TrimSpace loop.1, err := none, renderer := some r.close.1,
      trace := loop.2.2 ++ r.close.2 }
  | none => { text := TrimSpace loop.1, err := none, renderer := none, trace := loop.2.2 }

/-- The delta of one input line, in the words of the specification: the text of the first
part of the first candidate, when the line starts with `data: ` and its remainder decodes
with at least one candidate and one part. -/
def lineDelta (unmarshal : GoString → Option Chunk) (line : GoString) : Option GoString :=
  if HasPrefix line (str "data: ") then
    match unmarshal (line.drop (str "data: ").length) with
    | some chunk =>
      match chunk.Candidates.head? with
      | some cand => (cand.Content.Parts.head?).map (fun p => p.Text)
      | none => none
    | none => none
  else none

/-- The deltas of a sequence of input lines, in arrival order. -/
def deltas (unmarshal : GoString → Option Chunk) (lines : List GoString) : List GoString :=
  lines.filterMap (lineDelta unmarshal)

/-- The payload of a well-formed event: one candidate with one part whose text is `ls`. -/
def samplePayload : GoString :=
  str "\x7b\"candidates\":[\x7b\"content\":\x7b\"parts\":[\x7b\"text\":\"ls\"\x7d]\x7d\x7d]\x7d"

/-- A decoder for the examples: it decodes `samplePayload` as `json.Unmarshal` does and
reports an error on every other input (as `json.Unmarshal` does on text that is not JSON). -/
def sampleUnmarshal (data : GoString) : Option Chunk :=
  if data = samplePayload then
    some { Candidates := [{ Content := { Parts := [{ Text := str "ls" }] } }] }
  else none

/-! ## Specification-level views of a whole session -/

/-- The lines of a text as the specification counts them: separated by newlines, the
unterminated last line included when it is not empty. -/
def textLines (t : GoString) : List GoString :=
  (splitLines t).1 ++ (if (splitLines t).2 = [] then [] else [(splitLines t).2])

/-- Whether a line is a fence delimiter: its whitespace-trimmed form starts with three
backticks. -/
def isFence (line : GoString) : Bool := HasPrefix (TrimSpace line) (str "```")

/-- The bytes that `renderLine` prints for each line of a list, in order, the first line
rendered with `inCode = ic`. -/
def lineOutputs : Bool → List GoString → List GoString
  | _, [] => []
  | ic, l :: ls => printed (lineTrace ic l) :: lineOutputs (lineFlag ic l) ls

/-! ## `parseArgs` -/

/-- Go `strings.Join(elems, sep)`. -/
def Join : List GoString → GoString → GoString
  | [], _ => []
  | [a], _ => a
  | a :: b :: more, sep => a ++ sep ++ Join (b :: more) sep

/-- The loop `for _, arg := range args` of `parseArgs`, with its `switch`, on the locals
`m` and `rest`. -/
def parseArgsLoop : mode → List GoString → List GoString → mode × List GoString
  | m, rest, [] => (m, rest)
  | m, rest, arg :: args =>
    if arg = str "--explain" ∨ arg = str "-e" then parseArgsLoop mode.modeExplain rest args
    else if arg = str "--confirm" ∨ arg = str "-c" then
      parseArgsLoop mode.modeConfirm rest args
    else if arg = str "--yolo" ∨ arg = str "-y" then parseArgsLoop mode.modeYolo rest args
    else parseArgsLoop m (rest ++ [arg]) args

/-- Go `parseArgs(args)`. -/
def parseArgs (args : List GoString) : mode × GoString :=
  ((parseArgsLoop mode.modeConfirm [] args).1,
    Join (parseArgsLoop mode.modeConfirm [] args).2 (str " "))

/-- The six flags of the usage text. -/
def flags : List GoString :=
  [str "--explain", str "-e", str "--confirm", str "-c", str "--yolo", str "-y"]

/-- The mode that a flag of the usage text selects. -/
def modeOfFlag (flag : GoString) : mode :=
  if flag = str "--explain" ∨ flag = str "-e" then mode.modeExplain
  else if flag = str "--yolo" ∨ flag = str "-y" then mode.modeYolo
  else mode.modeConfirm

/-- The question in the words of the specification: the arguments that are not flags, in
their order, with one space between neighbours. -/
def specQuestion (args : List GoString) : GoString :=
  (str " ").intercalate (args.filter (fun a => decide (a ∉ flags)))

/-- The mode in the words of the specification: that of the last flag among the arguments,
`m` when there is none. -/
def specMode (m : mode) (args : List GoString) : mode :=
  match (args.filter (fun a => decide (a ∈ flags))).getLast? with
  | some flag => modeOfFlag flag
  | none => m

/-- The bytes of a text other than `*` and the backtick, in their order. -/
def plainBytes (s : GoString) : GoString := s.filter (fun c => c != 42 && c != 96)

/-! ## `renderInline` with the run-time checks of Go made explicit -/

/-- Go index expression `s[i]`: `none` (a run-time panic) unless `i < len(s)`. -/
def byteAt (s : GoString) (i : Nat) : Option UInt8 :=
  if i < s.length then s[i]? else none

/-- Go slice expression `s[i:]`: `none` (a run-time panic) unless `i <= len(s)`. -/
def sliceFrom (s : GoString) (i : Nat) : Option GoString :=
  if i ≤ s.length then some (s.drop i) else none

/-- Go slice expression `s[i:j]`: `none` (a run-time panic) unless `i <= j <= len(s)`. -/
def sliceBetween (s : GoString) (i j : Nat) : Option GoString :=
  if i ≤ j ∧ j ≤ s.length then some (slice s i j) else none

/-- The test `i+1 < len(s) && s[i] == '*' && s[i+1] == '*'` evaluated from left to right,
and, when it holds, `strings.Index(s[i+2:], "**")`. The outer `none` is a panic. -/
def boldTest (s : GoString) (i : Nat) : Option (Option Nat) :=
  if i + 1 < s.length then
    (byteAt s i).bind fun c =>
      if c = 42 then
        (byteAt s (i + 1)).bind fun d =>
          if d = 42 then (sliceFrom s (i + 2)).map fun t => Index t (str "**")
          else some none
      else some none
  else some none

/-- The test `s[i] == '`'` and, when it holds, `strings.Index(s[i+1:], "`")`. The outer
`none` is a panic. -/
def codeTest (s : GoString) (i : Nat) : Option (Option Nat) :=
  (byteAt s i).bind fun c =>
    if c = 96 then (sliceFrom s (i + 1)).map fun t => Index t (str "`")
    else some none

/-- The loop of `renderInline` as `renderInlineLoop`, with every index and slice expression
checked as the Go run time checks it: `none` when an expression panics, or when the bound
`fuel` is used up before the loop condition `i < len(s)` fails. -/
def renderInlineChecked : Nat → GoString → Nat → GoString → Option GoString
  | 0, s, i, out => if i < s.length then none else some out
  | fuel + 1, s, i, out =>
    if i < s.length then
      (boldTest s i).bind fun bold =>
        match bold with
        | some e =>
          (sliceBetween s (i + 2) (i + 2 + e)).bind fun inner =>
            (renderInlineChecked fuel inner 0 []).bind fun rendered =>
              renderInlineChecked fuel s (i + 2 + e + 2)
                (out ++ ansiBold ++ rendered ++ ansiReset)
        | none =>
          (codeTest s i).bind fun code =>
            match code with
            | some e =>
              (sliceBetween s (i + 1) (i + 1 + e)).bind fun inner =>
                renderInlineChecked fuel s (i + 1 + e + 1)
                  (out ++ ansiCyan ++ inner ++ ansiReset)
            | none =>
              (byteAt s i).bind fun c => renderInlineChecked fuel s (i + 1) (out ++ [c])
    else some out

/-! ## `strings.Index` -/

theorem str_nl : str "\n" = [10] := by decide
theorem str_tick : str "`" = [96] := by decide
theorem str_star2 : str "**" = [42, 42] := by decide

theorem Index_nil_left (sub : GoString) (h : sub ≠ []) : Index [] sub = none := by
  cases sub with
  | nil => exact absurd rfl h
  | cons a t => simp [Index, List.isPrefixOf]

theorem Index_cons (c : UInt8) (s sub : GoString) :
    Index (c :: s) sub = if sub.isPrefixOf (c :: s) then some 0 else (Index s sub).map (· + 1) := by
  rw [Index]

theorem Index_le (sub : GoString) : ∀ (s : GoString) (e : Nat), Index s sub = some e → e + sub.length ≤ s.length := by
  intro s
  induction s with
  | nil =>
    intro e h
    unfold Index at h
    split at h
    · rename_i hp
      have := (List.isPrefixOf_iff_prefix.mp hp).length_le
      simp at h; omega
    · simp at h
  | cons c s ih =>
    intro e h
    rw [Index_cons] at h
    split at h
    · rename_i hp
      have := (List.isPrefixOf_iff_prefix.mp hp).length_le
      simp at h; omega
    · cases hI : Index s sub with
      | none => simp [hI] at h
      | some e1 =>
        simp [hI] at h
        have := ih e1 hI
        simp; omega

theorem Index_single_none (c : UInt8) : ∀ s : GoString, c ∉ s → Index s [c] = none := by
  intro s
  induction s with
  | nil => intro _; simp [Index, List.isPrefixOf]
  | cons x s ih =>
    intro h
    simp at h
    rw [Index_cons]
    simp [List.isPrefixOf, ih h.2, h.1]

theorem Index_single_append (c : UInt8) (rest : GoString) :
    ∀ l : GoString, c ∉ l → Index (l ++ c :: rest) [c] = some l.length := by
  intro l
  induction l with
  | nil => intro _; simp [Index, List.isPrefixOf]
  | cons x l ih =>
    intro h
    simp at h
    rw [List.cons_append, Index_cons]
    simp [List.isPrefixOf, ih h.2, h.1]

theorem Index_star2_none : ∀ t : GoString, (42 : UInt8) ∉ t → Index t [42, 42] = none := by
  intro s
  induction s with
  | nil => intro _; simp [Index, List.isPrefixOf]
  | cons x s ih =>
    intro h
    simp at h
    rw [Index_cons]
    simp [List.isPrefixOf, ih h.2, h.1]

theorem Index_star2_append (rest : GoString) :
    ∀ t : GoString, (42 : UInt8) ∉ t → Index (t ++ 42 :: 42 :: rest) [42, 42] = some t.length := by
  intro l
  induction l with
  | nil => intro _; simp [Index, List.isPrefixOf]
  | cons x l ih =>
    intro h
    simp at h
    rw [List.cons_append, Index_cons]
    simp [List.isPrefixOf, ih h.2, h.1]

/-! ## The scan loop of `renderInline` depends only on the text from the scan index on -/

theorem renderInlineLoop_succ (fuel : Nat) (s : GoString) (i : Nat) (out : GoString) :
    renderInlineLoop (fuel + 1) s i out =
      if i < s.length then
        match boldAt s i with
        | some e =>
          renderInlineLoop fuel s (i + 2 + e + 2)
            (out ++ ansiBold ++ renderInlineLoop fuel (slice s (i + 2) (i + 2 + e)) 0 []
              ++ ansiReset)
        | none =>
          match codeAt s i with
          | some e =>
            renderInlineLoop fuel s (i + 1 + e + 1)
              (out ++ ansiCyan ++ slice s (i + 1) (i + 1 + e) ++ ansiReset)
          | none => renderInlineLoop fuel s (i + 1) (out ++ (s[i]?).toList)
      else out := by
  rw [renderInlineLoop]; rfl

theorem boldAt_drop (s : GoString) (i : Nat) : boldAt (s.drop i) 0 = boldAt s i := by
  unfold boldAt
  have h1 : (0 + 1 < (s.drop i).length) = (i + 1 < s.length) := by
    simp only [List.length_drop, eq_iff_iff]; omega
  simp only [h1, List.getElem?_drop, List.drop_drop, Nat.add_zero, Nat.zero_add]

theorem codeAt_drop (s : GoString) (i : Nat) : codeAt (s.drop i) 0 = codeAt s i := by
  unfold codeAt
  simp only [List.getElem?_drop, List.drop_drop, Nat.add_zero, Nat.zero_add]

theorem slice_drop (s : GoString) (i a b : Nat) :
    slice (s.drop i) a b = slice s (i + a) (i + b) := by
  have h1 : i + b - (i + a) = b - a := by omega
  simp only [slice, List.drop_take, List.drop_drop, h1, Nat.add_comm a i]

theorem slice_length_le (s : GoString) (a e : Nat) : (slice s a (a + e)).length ≤ e := by
  unfold slice
  simp only [List.length_drop, List.length_take]; omega

theorem boldAt_bound (s : GoString) (i e : Nat) (h : boldAt s i = some e) :
    i + 2 + e + 2 ≤ s.length := by
  unfold boldAt at h
  split at h
  · have := Index_le _ _ _ h
    rw [str_star2] at this
    simp only [List.length_drop, List.length_cons, List.length_nil] at this
    omega
  · simp at h

theorem codeAt_bound (s : GoString) (i e : Nat) (h : codeAt s i = some e) :
    i + 1 + e + 1 ≤ s.length := by
  unfold codeAt at h
  split at h
  · have := Index_le _ _ _ h
    rw [str_tick] at this
    simp only [List.length_drop, List.length_cons, List.length_nil] at this
    omega
  · simp at h

theorem renderInlineLoop_suffix : ∀ (fuel : Nat) (s : GoString) (i : Nat) (out : GoString),
    s.length - i ≤ fuel →
    renderInlineLoop fuel s i out
      = out ++ renderInlineLoop (s.length - i) (s.drop i) 0 [] := by
  intro fuel
  induction fuel using Nat.strong_induction_on with
  | _ fuel ih =>
    intro s i out hle
    by_cases hi : i < s.length
    · obtain ⟨f, rfl⟩ : ∃ f, fuel = f + 1 := ⟨fuel - 1, by omega⟩
      obtain ⟨m, hm⟩ : ∃ m, s.length - i = m + 1 := ⟨s.length - i - 1, by omega⟩
      have hpos : 0 < (s.drop i).length := by simp only [List.length_drop]; omega
      rw [hm, renderInlineLoop_succ f, renderInlineLoop_succ m, if_pos hi, if_pos hpos,
        boldAt_drop, codeAt_drop]
      have hinner : ∀ a e, i + a + e ≤ s.length → 1 ≤ a →
          renderInlineLoop f (slice s (i + a) (i + a + e)) 0 []
            = renderInlineLoop m (slice (s.drop i) (0 + a) (0 + a + e)) 0 [] := by
        intro a e hb ha
        have hl := slice_length_le s (i + a) e
        rw [slice_drop, ih f (by omega) _ 0 [] (by omega),
          ih m (by omega) _ 0 [] (by simp only [Nat.add_zero, Nat.zero_add, ← Nat.add_assoc]; omega)]
        simp only [Nat.add_zero, Nat.zero_add, ← Nat.add_assoc]
      have houter : ∀ k acc, 1 ≤ k →
          renderInlineLoop f s (i + k) (out ++ acc)
            = out ++ renderInlineLoop m (s.drop i) (0 + k) acc := by
        intro k acc hk
        rw [ih f (by omega) s (i + k) _ (by omega),
          ih m (by omega) (s.drop i) (0 + k) _ (by simp only [List.length_drop]; omega)]
        simp only [List.length_drop, List.drop_drop, Nat.zero_add, List.append_assoc]
        have e1 : s.length - (i + k) = s.length - i - k := by omega
        rw [e1]
      cases hb : boldAt s i with
      | some e =>
        have hbd := boldAt_bound s i e hb
        simp only []
        rw [← hinner 2 e (by omega) (by omega)]
        have := houter (2 + e + 2) (ansiBold ++ renderInlineLoop f (slice s (i + 2) (i + 2 + e)) 0 [] ++ ansiReset) (by omega)
        simp only [← Nat.add_assoc, ← List.append_assoc, List.append_nil, Nat.zero_add] at this ⊢
        exact this
      | none =>
        simp only []
        cases hc : codeAt s i with
        | some e =>
          have hcd := codeAt_bound s i e hc
          simp only []
          have := houter (1 + e + 1) (ansiCyan ++ slice s (i + 1) (i + 1 + e) ++ ansiReset) (by omega)
          rw [slice_drop]
          simp only [← Nat.add_assoc, ← List.append_assoc, List.append_nil, Nat.zero_add, Nat.add_zero] at this ⊢
          exact this
        | none =>
          simp only []
          have := houter 1 ((s[i]?).toList) (by omega)
          simp only [List.getElem?_drop, ← Nat.add_assoc, ← List.append_assoc, List.append_nil, List.nil_append, Nat.zero_add, Nat.add_zero] at this ⊢
          exact this
    · have h0 : s.length - i = 0 := by omega
      rw [h0]
      cases fuel with
      | zero => simp [renderInlineLoop]
      | succ f => rw [renderInlineLoop_succ, if_neg hi]; simp [renderInlineLoop]

/-! ## Lines of a text -/

theorem lines_induction (P : GoString → Prop) (h0 : ∀ l : GoString, (10 : UInt8) ∉ l → P l)
    (h1 : ∀ l rest : GoString, (10 : UInt8) ∉ l → P rest → P (l ++ 10 :: rest)) :
    ∀ s, P s := by
  suffices h : ∀ (n : Nat) (s : GoString), s.length = n → P s from fun s => h _ s rfl
  intro n
  induction n using Nat.strong_induction_on with
  | _ n ih =>
    intro s hn
    by_cases hmem : (10 : UInt8) ∈ s
    · obtain ⟨l, rest, rfl, hl⟩ := List.eq_append_cons_of_mem hmem
      refine h1 l rest hl (ih rest.length ?_ rest rfl)
      rw [← hn]; simp only [List.length_append, List.length_cons]; omega
    · exact h0 s hmem

theorem splitLines_of_not_mem : ∀ l : GoString, (10 : UInt8) ∉ l → splitLines l = ([], l) := by
  intro l
  induction l with
  | nil => intro _; rfl
  | cons c l ih =>
    intro h
    simp only [List.mem_cons, not_or] at h
    have hc : c ≠ 10 := fun e => h.1 e.symm
    simp only [splitLines, hc, if_false, ih h.2]

theorem splitLines_append_nl (rest : GoString) : ∀ l : GoString, (10 : UInt8) ∉ l →
    splitLines (l ++ 10 :: rest) = (l :: (splitLines rest).1, (splitLines rest).2) := by
  intro l
  induction l with
  | nil => intro _; simp [splitLines]
  | cons c l ih =>
    intro h
    simp only [List.mem_cons, not_or] at h
    have hc : c ≠ 10 := fun e => h.1 e.symm
    show splitLines (c :: (l ++ 10 :: rest)) = _
    rw [splitLines, if_neg hc, ih h.2]

theorem splitLines_rest_not_mem : ∀ s : GoString, (10 : UInt8) ∉ (splitLines s).2 := by
  apply lines_induction
  · intro l hl; rw [splitLines_of_not_mem l hl]; exact hl
  · intro l rest hl ih; rw [splitLines_append_nl rest l hl]; exact ih

theorem splitLines_append (f : GoString) : ∀ c : GoString,
    splitLines (c ++ f) =
      ((splitLines c).1 ++ (splitLines ((splitLines c).2 ++ f)).1,
        (splitLines ((splitLines c).2 ++ f)).2) := by
  apply lines_induction
  · intro l hl; rw [splitLines_of_not_mem l hl]; rfl
  · intro l rest hl ih
    rw [List.append_assoc, List.cons_append, splitLines_append_nl _ l hl, ih,
      splitLines_append_nl rest l hl]
    rfl

theorem splitLines_flatMap (rem : GoString) : ∀ ls : List GoString,
    (∀ l ∈ ls, (10 : UInt8) ∉ l) →
    splitLines (ls.flatMap (fun l => l ++ str "\n") ++ rem)
      = (ls ++ (splitLines rem).1, (splitLines rem).2) := by
  intro ls
  induction ls with
  | nil => intro _; rfl
  | cons l ls ih =>
    intro h
    have hl := h l (List.mem_cons_self _ _)
    have ih1 := ih (fun x hx => h x (List.mem_cons_of_mem _ hx))
    rw [List.flatMap_cons, str_nl, List.append_assoc, List.append_assoc, List.singleton_append,
      splitLines_append_nl _ l hl]
    rw [str_nl] at ih1
    rw [ih1]; rfl

theorem takeWhile_append_stop {α : Type} (p : α → Bool) (x : α) (b : List α) (hx : p x = false) :
    ∀ a : List α, (a ++ x :: b).takeWhile p = a.takeWhile p := by
  intro a
  induction a with
  | nil => simp [List.takeWhile, hx]
  | cons y a ih =>
    simp only [List.cons_append, List.takeWhile_cons, ih]

theorem afterLastNewline_of_not_mem (l : GoString) (h : (10 : UInt8) ∉ l) :
    afterLastNewline l = l := by
  unfold afterLastNewline
  rw [List.takeWhile_eq_self_iff.mpr, List.reverse_reverse]
  intro x hx
  have hx1 : x ∈ l := List.mem_reverse.mp hx
  simp only [bne_iff_ne, ne_eq]
  intro e; exact h (e ▸ hx1)

theorem afterLastNewline_append_nl (l rest : GoString) :
    afterLastNewline (l ++ 10 :: rest) = afterLastNewline rest := by
  unfold afterLastNewline
  rw [List.reverse_append, List.reverse_cons, List.append_assoc, List.singleton_append,
    takeWhile_append_stop _ _ _ (by decide)]

theorem splitLines_rest_eq : ∀ s : GoString, (splitLines s).2 = afterLastNewline s := by
  apply lines_induction
  · intro l hl; rw [splitLines_of_not_mem l hl, afterLastNewline_of_not_mem l hl]
  · intro l rest hl ih; rw [splitLines_append_nl rest l hl, afterLastNewline_append_nl]; exact ih

/-! ## The renderer in terms of the lines of its input -/

theorem renderLine_eq (r : termRenderer) (line : GoString) :
    r.renderLine line
      = ({ r with inCode := lineFlag r.inCode line }, lineTrace r.inCode line) := by
  obtain ⟨buf, ic⟩ := r
  unfold lineFlag lineTrace termRenderer.renderLine
  simp only []
  split
  · rfl
  · split
    · rename_i h; simp only [h]
    · rename_i h
      simp only [Bool.not_eq_true] at h
      split <;> simp only [h]

theorem renderLines_append (ls2 : List GoString) : ∀ (ls1 : List GoString) (ic : Bool),
    renderLines ic (ls1 ++ ls2)
      = ((renderLines (renderLines ic ls1).1 ls2).1,
          (renderLines ic ls1).2 ++ (renderLines (renderLines ic ls1).1 ls2).2) := by
  intro ls1
  induction ls1 with
  | nil => intro ic; rfl
  | cons l ls1 ih =>
    intro ic
    show renderLines ic (l :: (ls1 ++ ls2)) = _
    rw [renderLines, ih, renderLines]
    simp only [List.append_assoc]

theorem flushLoop_of_not_mem (fuel : Nat) (r : termRenderer) (l : GoString)
    (h : (10 : UInt8) ∉ l) : flushLoop fuel r l = (r, l, []) := by
  cases fuel with
  | zero => rfl
  | succ n => rw [flushLoop, str_nl, Index_single_none 10 l h]

theorem flushLoop_append_nl (fuel : Nat) (r : termRenderer) (l rest : GoString)
    (h : (10 : UInt8) ∉ l) :
    flushLoop (fuel + 1) r (l ++ 10 :: rest)
      = ((flushLoop fuel { r with inCode := lineFlag r.inCode l } rest).1,
          (flushLoop fuel { r with inCode := lineFlag r.inCode l } rest).2.1,
          lineTrace r.inCode l ++ [Event.print (str "\n")]
            ++ (flushLoop fuel { r with inCode := lineFlag r.inCode l } rest).2.2) := by
  rw [flushLoop, str_nl, Index_single_append 10 rest l h]
  have h1 : slice (l ++ 10 :: rest) 0 l.length = l := by simp [slice]
  have h2 : (l ++ 10 :: rest).drop (l.length + 1) = rest := by
    rw [List.drop_append]; rfl
  simp only [h1, h2, renderLine_eq]

theorem flushLoop_eq : ∀ (content : GoString) (fuel : Nat) (r : termRenderer),
    content.length < fuel →
    flushLoop fuel r content
      = ({ r with inCode := (renderLines r.inCode (splitLines content).1).1 },
          (splitLines content).2, (renderLines r.inCode (splitLines content).1).2) := by
  apply lines_induction
  · intro l hl fuel r _
    rw [flushLoop_of_not_mem fuel r l hl, splitLines_of_not_mem l hl]; rfl
  · intro l rest hl ih fuel r hf
    obtain ⟨n, rfl⟩ : ∃ n, fuel = n + 1 := ⟨fuel - 1, by omega⟩
    have hn : rest.length < n := by
      simp only [List.length_append, List.length_cons] at hf; omega
    rw [flushLoop_append_nl n r l rest hl, ih n _ hn, splitLines_append_nl rest l hl]
    simp only [renderLines, List.append_assoc]

theorem write_eq (r : termRenderer) (f : GoString) :
    r.write f
      = ({ buf := (splitLines (r.buf ++ f)).2,
           inCode := (renderLines r.inCode (splitLines (r.buf ++ f)).1).1 },
          (renderLines r.inCode (splitLines (r.buf ++ f)).1).2) := by
  unfold termRenderer.write termRenderer.flush
  simp only [flushLoop_eq _ _ _ (Nat.lt_succ_self _), Bool.false_and, Bool.false_eq_true,
    if_false, List.nil_append]

theorem close_eq (r : termRenderer) :
    r.close
      = if (splitLines r.buf).2 = [] then
          ({ buf := [], inCode := (renderLines r.inCode (splitLines r.buf).1).1 },
            (renderLines r.inCode (splitLines r.buf).1).2)
        else
          ({ buf := [],
             inCode := lineFlag (renderLines r.inCode (splitLines r.buf).1).1 (splitLines r.buf).2 },
            (renderLines r.inCode (splitLines r.buf).1).2
              ++ lineTrace (renderLines r.inCode (splitLines r.buf).1).1 (splitLines r.buf).2) := by
  unfold termRenderer.close termRenderer.flush
  simp only [flushLoop_eq _ _ _ (Nat.lt_succ_self _), Bool.true_and, renderLine_eq]
  by_cases h : (splitLines r.buf).2 = []
  · simp [h]
  · simp [h]

theorem close_of_not_mem (r : termRenderer) (h : (10 : UInt8) ∉ r.buf) :
    r.close
      = if r.buf = [] then ({ buf := [], inCode := r.inCode }, [])
        else ({ buf := [], inCode := lineFlag r.inCode r.buf }, lineTrace r.inCode r.buf) := by
  rw [close_eq, splitLines_of_not_mem _ h]
  simp only [renderLines, List.nil_append]

theorem write_buf_not_mem (r : termRenderer) (f : GoString) :
    (10 : UInt8) ∉ (r.write f).1.buf := by
  rw [write_eq]; exact splitLines_rest_not_mem _

theorem write_write (r : termRenderer) (f g : GoString) :
    ((r.write f).1.write g).1 = (r.write (f ++ g)).1
    ∧ (r.write (f ++ g)).2 = (r.write f).2 ++ ((r.write f).1.write g).2 := by
  simp only [write_eq, ← List.append_assoc, splitLines_append g (r.buf ++ f),
    renderLines_append, and_self]

theorem write_nil (r : termRenderer) (h : (10 : UInt8) ∉ r.buf) : r.write [] = (r, []) := by
  rw [write_eq, List.append_nil, splitLines_of_not_mem _ h]; rfl

theorem run_write (r : termRenderer) (text : GoString) (calls : List Call) :
    run r (Call.write text :: calls)
      = ((run (r.write text).1 calls).1, (r.write text).2 ++ (run (r.write text).1 calls).2) := by
  rw [run]

theorem run_close (r : termRenderer) (calls : List Call) :
    run r (Call.close :: calls)
      = ((run r.close.1 calls).1, r.close.2 ++ (run r.close.1 calls).2) := by
  rw [run]

theorem run_append : ∀ (a b : List Call) (r : termRenderer),
    run r (a ++ b) = ((run (run r a).1 b).1, (run r a).2 ++ (run (run r a).1 b).2) := by
  intro a
  induction a with
  | nil => intro b r; rfl
  | cons c a ih =>
    intro b r
    cases c with
    | write text =>
      show run r (Call.write text :: (a ++ b)) = _
      rw [run_write, run_write, ih, List.append_assoc]
    | close =>
      show run r (Call.close :: (a ++ b)) = _
      rw [run_close, run_close, ih, List.append_assoc]

theorem run_writes : ∀ (frs : List GoString) (r : termRenderer), (10 : UInt8) ∉ r.buf →
    run r (frs.map Call.write) = r.write frs.flatten := by
  intro frs
  induction frs with
  | nil => intro r h; rw [List.flatten_nil, write_nil r h]; rfl
  | cons f frs ih =>
    intro r h
    show run r (Call.write f :: frs.map Call.write) = _
    have hw := write_write r f frs.flatten
    rw [run_write, ih _ (write_buf_not_mem r f), List.flatten_cons, hw.1, ← hw.2]

theorem run_buf_not_mem : ∀ (calls : List Call) (r : termRenderer), (10 : UInt8) ∉ r.buf →
    (10 : UInt8) ∉ (run r calls).1.buf := by
  intro calls
  induction calls with
  | nil => intro r h; exact h
  | cons c calls ih =>
    intro r h
    cases c with
    | write text => rw [run_write]; exact ih _ (write_buf_not_mem r text)
    | close =>
      rw [run_close]
      refine ih _ ?_
      rw [close_eq]; split <;> simp

/-! ## `renderInline`, one marker at a time -/

theorem renderInlineLoop_eq (fuel : Nat) (s : GoString) (i : Nat) (out : GoString)
    (h : s.length - i ≤ fuel) :
    renderInlineLoop fuel s i out = out ++ renderInline (s.drop i) := by
  rw [renderInlineLoop_suffix fuel s i out h]
  unfold renderInline
  rw [List.length_drop]

theorem renderInline_nil : renderInline [] = [] := rfl

theorem renderInline_step (s : GoString) (hs : 0 < s.length) :
    renderInline s =
      match boldAt s 0 with
      | some e =>
        ansiBold ++ renderInline (slice s 2 (2 + e)) ++ ansiReset
          ++ renderInline (s.drop (2 + e + 2))
      | none =>
        match codeAt s 0 with
        | some e => ansiCyan ++ slice s 1 (1 + e) ++ ansiReset ++ renderInline (s.drop (1 + e + 1))
        | none => (s[0]?).toList ++ renderInline (s.drop 1) := by
  obtain ⟨m, hm⟩ : ∃ m, s.length = m + 1 := ⟨s.length - 1, by omega⟩
  have hunf : renderInline s = renderInlineLoop (m + 1) s 0 [] := by
    unfold renderInline; rw [hm]
  rw [hunf, renderInlineLoop_succ, if_pos hs]
  cases hb : boldAt s 0 with
  | some e =>
    have hbd := boldAt_bound s 0 e hb
    have hl := slice_length_le s (0 + 2) e
    simp only []
    rw [renderInlineLoop_eq m s _ _ (by omega), renderInlineLoop_eq m _ 0 [] (by omega)]
    simp only [List.nil_append, List.drop_zero, Nat.zero_add]
  | none =>
    simp only []
    cases hc : codeAt s 0 with
    | some e =>
      have hcd := codeAt_bound s 0 e hc
      simp only []
      rw [renderInlineLoop_eq m s _ _ (by omega)]
      simp only [List.nil_append, Nat.zero_add]
    | none =>
      simp only []
      rw [renderInlineLoop_eq m s _ _ (by omega)]
      simp only [List.nil_append, Nat.zero_add]

theorem renderInline_literal (c : UInt8) (s : GoString)
    (hb : boldAt (c :: s) 0 = none) (hc : codeAt (c :: s) 0 = none) :
    renderInline (c :: s) = c :: renderInline s := by
  rw [renderInline_step (c :: s) (by simp), hb, hc]
  simp

theorem boldAt_of_ne (c : UInt8) (s : GoString) (h : c ≠ 42) : boldAt (c :: s) 0 = none := by
  unfold boldAt
  rw [if_neg]
  simp [h]

theorem codeAt_of_ne (c : UInt8) (s : GoString) (h : c ≠ 96) : codeAt (c :: s) 0 = none := by
  unfold codeAt
  rw [if_neg]
  simp [h]

theorem renderInline_plain : ∀ t : GoString, (42 : UInt8) ∉ t → (96 : UInt8) ∉ t →
    renderInline t = t := by
  intro t
  induction t with
  | nil => intro _ _; rfl
  | cons c t ih =>
    intro h1 h2
    simp only [List.mem_cons, not_or] at h1 h2
    rw [renderInline_literal c t (boldAt_of_ne c t (fun e => h1.1 e.symm))
      (codeAt_of_ne c t (fun e => h2.1 e.symm)), ih h1.2 h2.2]

theorem renderInline_bold (t rest : GoString) (ht : (42 : UInt8) ∉ t) :
    renderInline (42 :: 42 :: (t ++ 42 :: 42 :: rest))
      = ansiBold ++ renderInline t ++ ansiReset ++ renderInline rest := by
  have hb : boldAt (42 :: 42 :: (t ++ 42 :: 42 :: rest)) 0 = some t.length := by
    unfold boldAt
    rw [if_pos (by simp), str_star2]
    exact Index_star2_append rest t ht
  rw [renderInline_step _ (by simp), hb]
  have h1 : slice (42 :: 42 :: (t ++ 42 :: 42 :: rest)) 2 (2 + t.length) = t := by
    simp [slice, Nat.add_comm 2]
  have h2 : (42 :: 42 :: (t ++ 42 :: 42 :: rest)).drop (2 + t.length + 2) = rest := by
    have : 2 + t.length + 2 = (t.length + 2) + 2 := by omega
    rw [this]
    simp only [List.drop_succ_cons]
    rw [List.drop_append]; rfl
  simp only [h1, h2]

theorem renderInline_code (t rest : GoString) (ht : (96 : UInt8) ∉ t) :
    renderInline (96 :: (t ++ 96 :: rest)) = ansiCyan ++ t ++ ansiReset ++ renderInline rest := by
  have hc : codeAt (96 :: (t ++ 96 :: rest)) 0 = some t.length := by
    unfold codeAt
    rw [if_pos (by simp), str_tick]
    exact Index_single_append 96 rest t ht
  rw [renderInline_step _ (by simp), boldAt_of_ne _ _ (by decide), hc]
  have h1 : slice (96 :: (t ++ 96 :: rest)) 1 (1 + t.length) = t := by
    simp [slice, Nat.add_comm 1]
  have h2 : (96 :: (t ++ 96 :: rest)).drop (1 + t.length + 1) = rest := by
    have : 1 + t.length + 1 = (t.length + 1) + 1 := by omega
    rw [this]
    simp only [List.drop_succ_cons]
    rw [List.drop_append]; rfl
  simp only [h1, h2]

theorem renderInline_open_bold (t : GoString) (h1 : (42 : UInt8) ∉ t) (h2 : (96 : UInt8) ∉ t) :
    renderInline (42 :: 42 :: t) = 42 :: 42 :: t := by
  have hb : boldAt (42 :: 42 :: t) 0 = none := by
    unfold boldAt
    rw [if_pos (by simp), str_star2]
    exact Index_star2_none t h1
  have hb2 : boldAt (42 :: t) 0 = none := by
    unfold boldAt
    rw [if_neg]
    intro hh
    have h3 := hh.2.2
    cases t with
    | nil => simp at h3
    | cons x t => simp at h3; exact h1 (h3 ▸ List.mem_cons_self _ _)
  rw [renderInline_literal _ _ hb (codeAt_of_ne _ _ (by decide)),
    renderInline_literal _ _ hb2 (codeAt_of_ne _ _ (by decide)), renderInline_plain t h1 h2]

theorem renderInline_open_code (t : GoString) (h1 : (42 : UInt8) ∉ t) (h2 : (96 : UInt8) ∉ t) :
    renderInline (96 :: t) = 96 :: t := by
  have hc : codeAt (96 :: t) 0 = none := by
    unfold codeAt
    rw [if_pos (by simp), str_tick]
    exact Index_single_none 96 t h2
  rw [renderInline_literal _ _ (boldAt_of_ne _ _ (by decide)) hc, renderInline_plain t h1 h2]

/-! ## The decode loop in terms of the deltas of its input -/

theorem decodeLine_eq (unmarshal : GoString → Option Chunk) (full : GoString)
    (renderer : Option termRenderer) (line : GoString) :
    decodeLine unmarshal full renderer line =
      match lineDelta unmarshal line with
      | none => (full, renderer, [])
      | some text =>
        (full ++ text, renderer.map (fun r => (r.write text).1),
          match renderer with
          | some r => (r.write text).2
          | none => [Event.print text]) := by
  unfold decodeLine lineDelta TrimPrefix
  cases hp : HasPrefix line (str "data: ") with
  | false => simp
  | true =>
    simp only [Bool.not_true, Bool.false_eq_true, if_false, if_true]
    cases hu : unmarshal (line.drop (str "data: ").length) with
    | none => simp
    | some chunk =>
      obtain ⟨cands⟩ := chunk
      cases cands with
      | nil => simp
      | cons c cs =>
        obtain ⟨⟨parts⟩⟩ := c
        cases parts with
        | nil => simp
        | cons p ps => cases renderer <;> simp

theorem decodeLoop_cons (unmarshal : GoString → Option Chunk) (full : GoString)
    (renderer : Option termRenderer) (line : GoString) (more : List GoString) :
    decodeLoop unmarshal full renderer (line :: more)
      = ((decodeLoop unmarshal (decodeLine unmarshal full renderer line).1
            (decodeLine unmarshal full renderer line).2.1 more).1,
          (decodeLoop unmarshal (decodeLine unmarshal full renderer line).1
            (decodeLine unmarshal full renderer line).2.1 more).2.1,
          (decodeLine unmarshal full renderer line).2.2
            ++ (decodeLoop unmarshal (decodeLine unmarshal full renderer line).1
                (decodeLine unmarshal full renderer line).2.1 more).2.2) := by
  rw [decodeLoop]

theorem decodeLoop_none (unmarshal : GoString → Option Chunk) :
    ∀ (lines : List GoString) (full : GoString),
    decodeLoop unmarshal full none lines
      = (full ++ (deltas unmarshal lines).flatten, none,
          (deltas unmarshal lines).map Event.print) := by
  intro lines
  induction lines with
  | nil => intro full; simp [decodeLoop, deltas]
  | cons line more ih =>
    intro full
    rw [decodeLoop_cons, decodeLine_eq]
    cases hd : lineDelta unmarshal line with
    | none =>
      simp only [ih, deltas, List.filterMap_cons, hd, List.nil_append]
    | some text =>
      simp only [ih, deltas, List.filterMap_cons, hd, Option.map_none', List.flatten_cons,
        List.map_cons, List.append_assoc, List.singleton_append]

theorem decodeLoop_some (unmarshal : GoString → Option Chunk) :
    ∀ (lines : List GoString) (full : GoString) (r : termRenderer),
    decodeLoop unmarshal full (some r) lines
      = (full ++ (deltas unmarshal lines).flatten,
          some (run r ((deltas unmarshal lines).map Call.write)).1,
          (run r ((deltas unmarshal lines).map Call.write)).2) := by
  intro lines
  induction lines with
  | nil => intro full r; simp [decodeLoop, deltas, run]
  | cons line more ih =>
    intro full r
    rw [decodeLoop_cons, decodeLine_eq]
    cases hd : lineDelta unmarshal line with
    | none =>
      simp only [ih, deltas, List.filterMap_cons, hd, List.nil_append]
    | some text =>
      simp only [ih, deltas, List.filterMap_cons, hd, Option.map_some', List.flatten_cons,
        List.map_cons, List.append_assoc, run_write]

theorem printed_map_print : ∀ ds : List GoString, printed (ds.map Event.print) = ds.flatten := by
  intro ds
  induction ds with
  | nil => rfl
  | cons d ds ih => simp only [List.map_cons, printed, ih, List.flatten_cons]

theorem toggles_map_print : ∀ ds : List GoString, toggles (ds.map Event.print) = 0 := by
  intro ds
  induction ds with
  | nil => rfl
  | cons d ds ih => simp only [List.map_cons, toggles, ih]

theorem printed_append : ∀ a b : List Event, printed (a ++ b) = printed a ++ printed b := by
  intro a b
  induction a with
  | nil => rfl
  | cons e a ih =>
    cases e with
    | print s =>
      show s ++ printed (a ++ b) = (s ++ printed a) ++ printed b
      rw [ih, List.append_assoc]
    | toggle => exact ih

theorem toggles_append : ∀ a b : List Event, toggles (a ++ b) = toggles a + toggles b := by
  intro a b
  induction a with
  | nil => simp [toggles]
  | cons e a ih =>
    cases e with
    | print s => exact ih
    | toggle =>
      show toggles (a ++ b) + 1 = (toggles a + 1) + toggles b
      rw [ih]; omega

theorem streamResponse_explain (unmarshal : GoString → Option Chunk) (body : Scanner) :
    streamResponse unmarshal mode.modeExplain body
      = { text := TrimSpace (deltas unmarshal body.lines).flatten, err := none,
          renderer := some (run termRenderer.fresh
            ((deltas unmarshal body.lines).map Call.write ++ [Call.close])).1,
          trace := (run termRenderer.fresh
            ((deltas unmarshal body.lines).map Call.write ++ [Call.close])).2 } := by
  unfold streamResponse
  simp only [if_true, decodeLoop_some, List.nil_append, run_append, run_close, run,
    List.append_nil]

theorem streamResponse_other (unmarshal : GoString → Option Chunk) (m : mode) (body : Scanner)
    (hm : m ≠ mode.modeExplain) :
    streamResponse unmarshal m body
      = { text := TrimSpace (deltas unmarshal body.lines).flatten, err := none,
          renderer := none, trace := (deltas unmarshal body.lines).map Event.print } := by
  unfold streamResponse
  simp only [if_neg hm, decodeLoop_none, List.nil_append]

/-! ## The loop bounds are never exhausted -/

theorem renderInlineLoop_fuel (fuel : Nat) (s : GoString) (h : s.length ≤ fuel) :
    renderInlineLoop fuel s 0 [] = renderInline s := by
  rw [renderInlineLoop_eq fuel s 0 [] (by omega)]
  rfl

theorem flushLoop_fuel (fuel : Nat) (r : termRenderer) (content : GoString)
    (h : content.length < fuel) :
    flushLoop fuel r content = flushLoop (content.length + 1) r content := by
  rw [flushLoop_eq content fuel r h, flushLoop_eq content _ r (Nat.lt_succ_self _)]

theorem flushLoop_rest_not_mem (r : termRenderer) (content : GoString) :
    (10 : UInt8) ∉ (flushLoop (content.length + 1) r content).2.1 := by
  rw [flushLoop_eq content _ r (Nat.lt_succ_self _)]
  exact splitLines_rest_not_mem content

theorem trimLeading_done (encs : List GoString) (hne : ∀ e ∈ encs, e ≠ []) :
    ∀ (fuel : Nat) (s : GoString), s.length ≤ fuel →
    encs.find? (fun e => e.isPrefixOf (trimLeading encs fuel s)) = none := by
  intro fuel
  induction fuel with
  | zero =>
    intro s hs
    have hs0 : s = [] := List.length_eq_zero.mp (by omega)
    subst hs0
    rw [trimLeading, List.find?_eq_none]
    intro e he
    cases e with
    | nil => exact absurd rfl (hne _ he)
    | cons a e => simp [List.isPrefixOf]
  | succ n ih =>
    intro s hs
    rw [trimLeading]
    cases hf : encs.find? (fun e => e.isPrefixOf s) with
    | none => simpa only using hf
    | some e =>
      simp only []
      apply ih
      have he : e ∈ encs := List.mem_of_find?_eq_some hf
      have hpos : 0 < e.length := List.length_pos.mpr (hne e he)
      simp only [List.length_drop]
      omega

/-! ## Claims about the incremental renderer -/

theorem fresh_buf_not_mem : (10 : UInt8) ∉ termRenderer.fresh.buf := by decide

/-- C1 (chunk-boundary invariance): for every text `t` and every list of fragments whose
concatenation is `t`, a fresh renderer that is given the fragments by `write`, in order,
and then `close`, ends in the same state (same `inCode`, empty buffer) and leaves the same
trace, hence prints the same bytes, as one that is given `write(t)` and then `close`. -/
theorem C1_chunk_boundary_invariance (t : GoString) (frs : List GoString)
    (h : frs.flatten = t) :
    run termRenderer.fresh (frs.map Call.write ++ [Call.close])
        = run termRenderer.fresh [Call.write t, Call.close]
    ∧ printed (run termRenderer.fresh (frs.map Call.write ++ [Call.close])).2
        = printed (run termRenderer.fresh [Call.write t, Call.close]).2
    ∧ (run termRenderer.fresh (frs.map Call.write ++ [Call.close])).1.inCode
        = (run termRenderer.fresh [Call.write t, Call.close]).1.inCode
    ∧ (run termRenderer.fresh (frs.map Call.write ++ [Call.close])).1.buf = [] := by
  subst h
  have e : run termRenderer.fresh (frs.map Call.write ++ [Call.close])
      = run termRenderer.fresh [Call.write frs.flatten, Call.close] := by
    rw [run_append, run_writes frs _ fresh_buf_not_mem, run_write]
  refine ⟨e, by rw [e], by rw [e], ?_⟩
  rw [e, run_write, run_close]
  show ((termRenderer.fresh.write frs.flatten).1.close).1.buf = []
  rw [close_eq]
  split <;> rfl

/-- Witness for C1: four fragments (one of them empty) that cut a fence line and a bold span. -/
theorem C1_chunk_boundary_invariance_witness :
    [str "``", str "`\n**a", str "", str "**\n# T"].flatten = str "```\n**a**\n# T" ∧
    (run termRenderer.fresh
          ([str "``", str "`\n**a", str "", str "**\n# T"].map Call.write ++ [Call.close])
        = run termRenderer.fresh [Call.write (str "```\n**a**\n# T"), Call.close]
    ∧ printed (run termRenderer.fresh
          ([str "``", str "`\n**a", str "", str "**\n# T"].map Call.write ++ [Call.close])).2
        = printed (run termRenderer.fresh [Call.write (str "```\n**a**\n# T"), Call.close]).2
    ∧ (run termRenderer.fresh
          ([str "``", str "`\n**a", str "", str "**\n# T"].map Call.write ++ [Call.close])).1.inCode
        = (run termRenderer.fresh [Call.write (str "```\n**a**\n# T"), Call.close]).1.inCode
    ∧ (run termRenderer.fresh
          ([str "``", str "`\n**a", str "", str "**\n# T"].map Call.write
            ++ [Call.close])).1.buf = []) :=
  ⟨by decide, C1_chunk_boundary_invariance (str "```\n**a**\n# T")
    [str "``", str "`\n**a", str "", str "**\n# T"] (by decide)⟩

/-- C6 (buffer invariant): after any sequence of `write` and `close` calls on a fresh
renderer the buffer holds no newline; after `write(f)` the buffer is the part of
(previous buffer + `f`) that follows its last newline (all of it when there is none);
after `close` the buffer is empty. -/
theorem C6_buffer_invariant :
    (∀ calls : List Call, (10 : UInt8) ∉ (run termRenderer.fresh calls).1.buf)
    ∧ (∀ (r : termRenderer) (f : GoString),
        (r.write f).1.buf = afterLastNewline (r.buf ++ f))
    ∧ (∀ r : termRenderer, r.close.1.buf = []) := by
  refine ⟨fun calls => run_buf_not_mem calls _ fresh_buf_not_mem, ?_, ?_⟩
  · intro r f
    rw [write_eq]
    exact splitLines_rest_eq _
  · intro r
    rw [close_eq]
    split <;> rfl

theorem lineFlag_body (L : GoString) (h : HasPrefix (TrimSpace L) (str "```") = false) :
    lineFlag true L = true
    ∧ lineTrace true L = [Event.print (str "  " ++ ansiDim ++ L ++ ansiReset)] := by
  unfold lineFlag lineTrace termRenderer.renderLine
  simp only [h, Bool.false_eq_true, if_false, if_true, and_self]

theorem renderLines_body : ∀ body : List GoString,
    (∀ L ∈ body, HasPrefix (TrimSpace L) (str "```") = false) →
    renderLines true body
      = (true, body.flatMap (fun L =>
          [Event.print (str "  " ++ ansiDim ++ L ++ ansiReset), Event.print (str "\n")])) := by
  intro body
  induction body with
  | nil => intro _; rfl
  | cons L body ih =>
    intro h
    have hL := lineFlag_body L (h L (List.mem_cons_self _ _))
    have ih1 := ih (fun x hx => h x (List.mem_cons_of_mem _ hx))
    rw [renderLines, hL.1, hL.2, ih1, List.flatMap_cons]
    rfl

theorem toggles_body : ∀ body : List GoString,
    toggles (body.flatMap (fun L =>
      [Event.print (str "  " ++ ansiDim ++ L ++ ansiReset), Event.print (str "\n")])) = 0 := by
  intro body
  induction body with
  | nil => rfl
  | cons L body ih => rw [List.flatMap_cons, toggles_append, ih]; rfl

theorem printed_body : ∀ body : List GoString,
    printed (body.flatMap (fun L =>
      [Event.print (str "  " ++ ansiDim ++ L ++ ansiReset), Event.print (str "\n")]))
      = body.flatMap (fun L => str "  " ++ ansiDim ++ L ++ ansiReset ++ str "\n") := by
  intro body
  induction body with
  | nil => rfl
  | cons L body ih =>
    rw [List.flatMap_cons, List.flatMap_cons, printed_append, ih]
    simp only [printed, List.append_nil]

/-- C5 (fenced block across fragments): for body lines that hold no newline and whose
trimmed form does not start with three backticks, and for every list of fragments whose
concatenation is the opening fence line, the body lines and the closing fence line (each
ended by a newline), the `write` calls on a fresh renderer flip `inCode` exactly twice
(once before and once after the body, ending false with an empty buffer) and print, for
each body line `L`, exactly two spaces, `ansiDim`, `L` unchanged, `ansiReset` and a
newline; each fence line prints only the newline of its `fmt.Println()`. -/
theorem C5_fenced_block (body frs : List GoString)
    (hnl : ∀ L ∈ body, (10 : UInt8) ∉ L)
    (hfence : ∀ L ∈ body, HasPrefix (TrimSpace L) (str "```") = false)
    (hsplit : frs.flatten
      = str "```\n" ++ body.flatMap (fun L => L ++ str "\n") ++ str "```\n") :
    (run termRenderer.fresh (frs.map Call.write)).1 = { buf := [], inCode := false }
    ∧ (run termRenderer.fresh (frs.map Call.write)).2
        = [Event.toggle, Event.print (str "\n")]
          ++ body.flatMap (fun L =>
              [Event.print (str "  " ++ ansiDim ++ L ++ ansiReset), Event.print (str "\n")])
          ++ [Event.toggle, Event.print (str "\n")]
    ∧ toggles (run termRenderer.fresh (frs.map Call.write)).2 = 2
    ∧ printed (run termRenderer.fresh (frs.map Call.write)).2
        = str "\n" ++ body.flatMap (fun L => str "  " ++ ansiDim ++ L ++ ansiReset ++ str "\n")
          ++ str "\n" := by
  have hsp : splitLines (termRenderer.fresh.buf ++ frs.flatten)
      = (str "```" :: (body ++ [str "```"]), []) := by
    have e : termRenderer.fresh.buf ++ frs.flatten
        = str "```" ++ 10 :: (body.flatMap (fun L => L ++ str "\n") ++ str "```\n") := by
      rw [hsplit]
      show str "```\n" ++ _ ++ _ = _
      have e1 : str "```\n" = str "```" ++ [10] := by decide
      rw [e1]
      simp only [List.append_assoc, List.singleton_append]
      rfl
    rw [e, splitLines_append_nl _ _ (by decide), splitLines_flatMap _ body hnl]
    have e2 : splitLines (str "```\n") = ([str "```"], []) := by decide
    rw [e2]
  have hr : renderLines false (str "```" :: (body ++ [str "```"]))
      = (false, [Event.toggle, Event.print (str "\n")]
          ++ body.flatMap (fun L =>
              [Event.print (str "  " ++ ansiDim ++ L ++ ansiReset), Event.print (str "\n")])
          ++ [Event.toggle, Event.print (str "\n")]) := by
    have f1 : lineFlag false (str "```") = true := by decide
    have f2 : lineTrace false (str "```") = [Event.toggle] := by decide
    have f3 : renderLines true [str "```"] = (false, [Event.toggle, Event.print (str "\n")]) := by
      decide
    rw [renderLines, f1, f2, renderLines_append, renderLines_body body hfence, f3]
    rfl
  have htrace : run termRenderer.fresh (frs.map Call.write)
      = ({ buf := [], inCode := false },
          [Event.toggle, Event.print (str "\n")]
          ++ body.flatMap (fun L =>
              [Event.print (str "  " ++ ansiDim ++ L ++ ansiReset), Event.print (str "\n")])
          ++ [Event.toggle, Event.print (str "\n")]) := by
    have hf : termRenderer.fresh.inCode = false := rfl
    rw [run_writes frs _ fresh_buf_not_mem, write_eq, hsp, hf]
    simp only [hr]
  rw [htrace]
  refine ⟨rfl, rfl, ?_, ?_⟩
  · simp only [toggles_append, toggles_body]; rfl
  · simp only [printed_append, printed_body]; rfl

/-- Witness for C5: two body lines with bold, code and heading markers, cut inside both fences. -/
theorem C5_fenced_block_witness :
    (∀ L ∈ [str "**x** `y`", str "# z"], (10 : UInt8) ∉ L) ∧
    (∀ L ∈ [str "**x** `y`", str "# z"], HasPrefix (TrimSpace L) (str "```") = false) ∧
    [str "``", str "`\n**x", str "** `y`\n# z\n``", str "`\n"].flatten
      = str "```\n" ++ [str "**x** `y`", str "# z"].flatMap (fun L => L ++ str "\n")
        ++ str "```\n" ∧
    ((run termRenderer.fresh
        ([str "``", str "`\n**x", str "** `y`\n# z\n``", str "`\n"].map Call.write)).1
        = { buf := [], inCode := false }
    ∧ (run termRenderer.fresh
        ([str "``", str "`\n**x", str "** `y`\n# z\n``", str "`\n"].map Call.write)).2
        = [Event.toggle, Event.print (str "\n")]
          ++ [str "**x** `y`", str "# z"].flatMap (fun L =>
              [Event.print (str "  " ++ ansiDim ++ L ++ ansiReset), Event.print (str "\n")])
          ++ [Event.toggle, Event.print (str "\n")]
    ∧ toggles (run termRenderer.fresh
        ([str "``", str "`\n**x", str "** `y`\n# z\n``", str "`\n"].map Call.write)).2 = 2
    ∧ printed (run termRenderer.fresh
        ([str "``", str "`\n**x", str "** `y`\n# z\n``", str "`\n"].map Call.write)).2
        = str "\n"
          ++ [str "**x** `y`", str "# z"].flatMap
              (fun L => str "  " ++ ansiDim ++ L ++ ansiReset ++ str "\n")
          ++ str "\n") :=
  ⟨by decide, by decide, by decide,
    C5_fenced_block [str "**x** `y`", str "# z"]
      [str "``", str "`\n**x", str "** `y`\n# z\n``", str "`\n"]
      (by decide) (by decide) (by decide)⟩

/-! ## Claims about the decode loop of `streamResponse` -/

/-- C2 (returned text): for every sequence of input lines and every mode, the string that
`streamResponse` returns is `strings.TrimSpace` of the concatenation, in arrival order, of
the deltas of the lines (the text of the first part of the first candidate of each line
that starts with `data: ` and decodes with a candidate and a part); a line without the
prefix or whose remainder fails to decode leaves the loop state unchanged. -/
theorem C2_returned_text (unmarshal : GoString → Option Chunk) (m : mode) (body : Scanner) :
    (streamResponse unmarshal m body).text
        = TrimSpace (deltas unmarshal body.lines).flatten
    ∧ (streamResponse unmarshal m body).text
        = (streamResponse unmarshal mode.modeExplain body).text
    ∧ (∀ (full : GoString) (renderer : Option termRenderer) (line : GoString),
        (HasPrefix line (str "data: ") = false
          ∨ unmarshal (TrimPrefix line (str "data: ")) = none) →
        decodeLine unmarshal full renderer line = (full, renderer, [])) := by
  have h1 : (streamResponse unmarshal m body).text
      = TrimSpace (deltas unmarshal body.lines).flatten := by
    by_cases hm : m = mode.modeExplain
    · rw [hm, streamResponse_explain]
    · rw [streamResponse_other unmarshal m body hm]
  refine ⟨h1, ?_, ?_⟩
  · rw [h1, streamResponse_explain]
  · intro full renderer line h
    unfold decodeLine
    rcases h with h | h
    · simp only [h, Bool.not_false, if_true]
    · cases hp : HasPrefix line (str "data: ") with
      | false => simp only [Bool.not_false, if_true]
      | true => simp only [Bool.not_true, Bool.false_eq_true, if_false, h]

/-- C3, as the claim states it, fails: on a stream that yields one event and then stops
with a read error, `streamResponse` returns a nil error. -/
theorem C3_counterexample :
    ({ lines := [str "data: " ++ samplePayload], err := some (str "unexpected EOF") }
        : Scanner).err ≠ none
    ∧ (streamResponse sampleUnmarshal mode.modeExplain
        { lines := [str "data: " ++ samplePayload],
          err := some (str "unexpected EOF") }).err = none := by
  decide

/-- C3 (amended): `streamResponse` never consults `scanner.Err()`. When the line scanner
stops, at the end of the input or on a read error alike, it closes the renderer if one is
active (exactly in mode `modeExplain`; its buffer is then empty and the trace ends with the
trace of `close`) and returns the trimmed accumulated text with a nil error; its result on
a stream that stops with a read error is its result on the same lines ending normally. -/
theorem C3_read_error_not_reported (unmarshal : GoString → Option Chunk) (m : mode)
    (body : Scanner) :
    (streamResponse unmarshal m body).err = none
    ∧ streamResponse unmarshal m body
        = streamResponse unmarshal m { lines := body.lines, err := none }
    ∧ ((streamResponse unmarshal m body).renderer.isSome = true ↔ m = mode.modeExplain)
    ∧ (∀ r : termRenderer, (streamResponse unmarshal m body).renderer = some r → r.buf = [])
    ∧ (streamResponse unmarshal mode.modeExplain body).trace
        = (run termRenderer.fresh ((deltas unmarshal body.lines).map Call.write)).2
          ++ (run termRenderer.fresh
              ((deltas unmarshal body.lines).map Call.write)).1.close.2 := by
  refine ⟨?_, rfl, ?_, ?_, ?_⟩
  · by_cases hm : m = mode.modeExplain
    · rw [hm, streamResponse_explain]
    · rw [streamResponse_other unmarshal m body hm]
  · by_cases hm : m = mode.modeExplain
    · rw [hm, streamResponse_explain]; simp
    · rw [streamResponse_other unmarshal m body hm]; simp [hm]
  · intro r hr
    by_cases hm : m = mode.modeExplain
    · rw [hm, streamResponse_explain] at hr
      simp only [Option.some.injEq] at hr
      rw [← hr, run_append, run_close]
      show ((run termRenderer.fresh _).1.close).1.buf = []
      rw [close_eq]
      split <;> rfl
    · rw [streamResponse_other unmarshal m body hm] at hr
      simp at hr
  · rw [streamResponse_explain, run_append, run_close]
    simp only [run, List.append_nil]

/-- C4, as the claim states it, fails: in mode `modeConfirm` (no renderer) the decode loop
prints the delta `ls` of the event it receives. -/
theorem C4_counterexample :
    mode.modeConfirm ≠ mode.modeExplain
    ∧ printed (streamResponse sampleUnmarshal mode.modeConfirm
        { lines := [str "data: " ++ samplePayload], err := none }).trace = str "ls"
    ∧ printed (streamResponse sampleUnmarshal mode.modeConfirm
        { lines := [str "data: " ++ samplePayload], err := none }).trace ≠ [] := by
  decide

/-- C4 (amended): when no renderer is active (the mode is not `modeExplain`), every
decoded delta is appended to the accumulated text and printed to the terminal as it is,
by one `fmt.Print(text)` each, unformatted and untrimmed; only when a renderer is active
(mode `modeExplain`) is the delta given to `write` instead, followed by one `close`. -/
theorem C4_no_renderer_prints_raw (unmarshal : GoString → Option Chunk) (m : mode)
    (body : Scanner) (hm : m ≠ mode.modeExplain) :
    (streamResponse unmarshal m body).trace = (deltas unmarshal body.lines).map Event.print
    ∧ printed (streamResponse unmarshal m body).trace = (deltas unmarshal body.lines).flatten
    ∧ toggles (streamResponse unmarshal m body).trace = 0
    ∧ (streamResponse unmarshal m body).renderer = none
    ∧ (streamResponse unmarshal m body).text
        = TrimSpace (deltas unmarshal body.lines).flatten
    ∧ (streamResponse unmarshal mode.modeExplain body).trace
        = (run termRenderer.fresh
            ((deltas unmarshal body.lines).map Call.write ++ [Call.close])).2 := by
  rw [streamResponse_other unmarshal m body hm, streamResponse_explain]
  exact ⟨rfl, printed_map_print _, toggles_map_print _, rfl, rfl, rfl⟩

/-- Witness for C4 (amended): mode `modeYolo`, two events among a comment line and a malformed line. -/
theorem C4_no_renderer_prints_raw_witness :
    mode.modeYolo ≠ mode.modeExplain ∧
    ((streamResponse sampleUnmarshal mode.modeYolo
        { lines := [str ": ping", str "data: " ++ samplePayload, str "data: [",
                    str "data: " ++ samplePayload], err := none }).trace
        = (deltas sampleUnmarshal [str ": ping", str "data: " ++ samplePayload, str "data: [",
                    str "data: " ++ samplePayload]).map Event.print
    ∧ printed (streamResponse sampleUnmarshal mode.modeYolo
        { lines := [str ": ping", str "data: " ++ samplePayload, str "data: [",
                    str "data: " ++ samplePayload], err := none }).trace
        = (deltas sampleUnmarshal [str ": ping", str "data: " ++ samplePayload, str "data: [",
                    str "data: " ++ samplePayload]).flatten
    ∧ toggles (streamResponse sampleUnmarshal mode.modeYolo
        { lines := [str ": ping", str "data: " ++ samplePayload, str "data: [",
                    str "data: " ++ samplePayload], err := none }).trace = 0
    ∧ (streamResponse sampleUnmarshal mode.modeYolo
        { lines := [str ": ping", str "data: " ++ samplePayload, str "data: [",
                    str "data: " ++ samplePayload], err := none }).renderer = none
    ∧ (streamResponse sampleUnmarshal mode.modeYolo
        { lines := [str ": ping", str "data: " ++ samplePayload, str "data: [",
                    str "data: " ++ samplePayload], err := none }).text
        = TrimSpace (deltas sampleUnmarshal [str ": ping", str "data: " ++ samplePayload,
                    str "data: [", str "data: " ++ samplePayload]).flatten
    ∧ (streamResponse sampleUnmarshal mode.modeExplain
        { lines := [str ": ping", str "data: " ++ samplePayload, str "data: [",
                    str "data: " ++ samplePayload], err := none }).trace
        = (run termRenderer.fresh
            ((deltas sampleUnmarshal [str ": ping", str "data: " ++ samplePayload,
                    str "data: [", str "data: " ++ samplePayload]).map Call.write
              ++ [Call.close])).2) :=
  ⟨by decide, C4_no_renderer_prints_raw sampleUnmarshal mode.modeYolo
    { lines := [str ": ping", str "data: " ++ samplePayload, str "data: [",
                str "data: " ++ samplePayload], err := none } (by decide)⟩

/-! ## Claims about `renderInline` and `renderLine` -/

theorem renderInline_no_star : ∀ (n : Nat) (t : GoString), t.length = n → (42 : UInt8) ∉ t →
    (42 : UInt8) ∉ renderInline t := by
  intro n
  induction n using Nat.strong_induction_on with
  | _ n ih =>
    intro t hn ht
    cases t with
    | nil => simp [renderInline_nil]
    | cons c t =>
      have hc : c ≠ 42 := fun e => ht (e ▸ List.mem_cons_self _ _)
      have hts : ∀ k, (42 : UInt8) ∉ (c :: t).drop k := fun k hm => ht (List.mem_of_mem_drop hm)
      rw [renderInline_step _ (by simp), boldAt_of_ne c t hc]
      simp only []
      cases hcode : codeAt (c :: t) 0 with
      | some e =>
        simp only []
        have hlen : ((c :: t).drop (1 + e + 1)).length < n := by
          rw [← hn]; simp only [List.length_drop, List.length_cons]; omega
        have h1 := ih _ hlen _ rfl (hts _)
        have h2 : (42 : UInt8) ∉ slice (c :: t) 1 (1 + e) := fun hm =>
          ht (List.mem_of_mem_take (List.mem_of_mem_drop hm))
        have h3 : (42 : UInt8) ∉ ansiCyan := by decide
        have h4 : (42 : UInt8) ∉ ansiReset := by decide
        simp only [List.mem_append, not_or]
        exact ⟨⟨⟨h3, h2⟩, h4⟩, h1⟩
      | none =>
        simp only []
        have hlen : ((c :: t).drop 1).length < n := by
          rw [← hn]; simp only [List.length_drop, List.length_cons]; omega
        have h1 := ih _ hlen _ rfl (hts _)
        simp only [List.mem_append, not_or]
        refine ⟨?_, h1⟩
        simp [Ne.symm hc]

/-- C7 (bold span): for a text `t` without `*`, `renderInline("**" + t + "**" + rest)` is
`ansiBold`, then `renderInline(t)` (the enclosed text is formatted recursively), then
`ansiReset`, then `renderInline(rest)`; the span ends at the first closing `**` and the
styled span holds no asterisk. A backtick span inside the bold span is rendered as code,
and `renderInline("**bold**")` is `"\033[1mbold\033[0m"`. -/
theorem C7_bold_span (t rest : GoString) (ht : (42 : UInt8) ∉ t) :
    renderInline (str "**" ++ t ++ str "**" ++ rest)
        = ansiBold ++ renderInline t ++ ansiReset ++ renderInline rest
    ∧ (42 : UInt8) ∉ ansiBold ++ renderInline t ++ ansiReset
    ∧ renderInline (str "**a`b`**")
        = ansiBold ++ (str "a" ++ ansiCyan ++ str "b" ++ ansiReset) ++ ansiReset
    ∧ renderInline (str "**a**b**") = ansiBold ++ str "a" ++ ansiReset ++ str "b**"
    ∧ renderInline (str "**bold**") = str "\x1b[1mbold\x1b[0m" := by
  refine ⟨?_, ?_, by decide, by decide, by decide⟩
  · have h := renderInline_bold t rest ht
    rw [str_star2]
    simpa only [List.append_assoc, List.cons_append, List.nil_append] using h
  · have h1 := renderInline_no_star _ t rfl ht
    have h3 : (42 : UInt8) ∉ ansiBold := by decide
    have h4 : (42 : UInt8) ∉ ansiReset := by decide
    simp only [List.mem_append, not_or]
    exact ⟨⟨h3, h1⟩, h4⟩

/-- Witness for C7: the text `**bold** x`. -/
theorem C7_bold_span_witness :
    (42 : UInt8) ∉ str "bold" ∧
    (renderInline (str "**" ++ str "bold" ++ str "**" ++ str " x")
        = ansiBold ++ renderInline (str "bold") ++ ansiReset ++ renderInline (str " x")
    ∧ (42 : UInt8) ∉ ansiBold ++ renderInline (str "bold") ++ ansiReset
    ∧ renderInline (str "**a`b`**")
        = ansiBold ++ (str "a" ++ ansiCyan ++ str "b" ++ ansiReset) ++ ansiReset
    ∧ renderInline (str "**a**b**") = ansiBold ++ str "a" ++ ansiReset ++ str "b**"
    ∧ renderInline (str "**bold**") = str "\x1b[1mbold\x1b[0m") :=
  ⟨by decide, C7_bold_span (str "bold") (str " x") (by decide)⟩

/-- C8 (inline code span): for a text `t` without a backtick,
`renderInline("`" + t + "`" + rest)` is `ansiCyan`, then `t` verbatim (not formatted, also
when it holds `**...**`), then `ansiReset`, then `renderInline(rest)`; and
`renderInline("`code`")` is `"\033[36mcode\033[0m"`. -/
theorem C8_code_span (t rest : GoString) (ht : (96 : UInt8) ∉ t) :
    renderInline (str "`" ++ t ++ str "`" ++ rest)
        = ansiCyan ++ t ++ ansiReset ++ renderInline rest
    ∧ renderInline (str "`**x**`") = ansiCyan ++ str "**x**" ++ ansiReset
    ∧ renderInline (str "`code`") = str "\x1b[36mcode\x1b[0m" := by
  refine ⟨?_, by decide, by decide⟩
  have h := renderInline_code t rest ht
  rw [str_tick]
  simpa only [List.append_assoc, List.cons_append, List.nil_append] using h

/-- Witness for C8: a code span that holds a complete bold marker pair. -/
theorem C8_code_span_witness :
    (96 : UInt8) ∉ str "**x**" ∧
    (renderInline (str "`" ++ str "**x**" ++ str "`" ++ str " y")
        = ansiCyan ++ str "**x**" ++ ansiReset ++ renderInline (str " y")
    ∧ renderInline (str "`**x**`") = ansiCyan ++ str "**x**" ++ ansiReset
    ∧ renderInline (str "`code`") = str "\x1b[36mcode\x1b[0m") :=
  ⟨by decide, C8_code_span (str "**x**") (str " y") (by decide)⟩

/-- C9 (unmatched markers are literal): for a text `t` with neither `*` nor a backtick,
`renderInline(t) = t`, `renderInline("**" + t) = "**" + t` and
`renderInline("`" + t) = "`" + t`; and `renderInline("**unterminated")` is
`"**unterminated"`. -/
theorem C9_unmatched_markers_literal (t : GoString) (h1 : (42 : UInt8) ∉ t)
    (h2 : (96 : UInt8) ∉ t) :
    renderInline t = t
    ∧ renderInline (str "**" ++ t) = str "**" ++ t
    ∧ renderInline (str "`" ++ t) = str "`" ++ t
    ∧ renderInline (str "**unterminated") = str "**unterminated" := by
  refine ⟨renderInline_plain t h1 h2, ?_, ?_, by decide⟩
  · rw [str_star2]; exact renderInline_open_bold t h1 h2
  · rw [str_tick]; exact renderInline_open_code t h1 h2

/-- Witness for C9: the text `unterminated`. -/
theorem C9_unmatched_markers_literal_witness :
    (42 : UInt8) ∉ str "unterminated" ∧ (96 : UInt8) ∉ str "unterminated" ∧
    (renderInline (str "unterminated") = str "unterminated"
    ∧ renderInline (str "**" ++ str "unterminated") = str "**" ++ str "unterminated"
    ∧ renderInline (str "`" ++ str "unterminated") = str "`" ++ str "unterminated"
    ∧ renderInline (str "**unterminated") = str "**unterminated") :=
  ⟨by decide, by decide, C9_unmatched_markers_literal (str "unterminated") (by decide) (by decide)⟩


theorem hasPrefix_cons (a b : UInt8) (s p : GoString) :
    HasPrefix (a :: s) (b :: p) = (b == a && HasPrefix s p) := rfl

theorem hasPrefix_nil (s : GoString) : HasPrefix s [] = true := by cases s <;> rfl

theorem headingLoop_eq (trimmed : GoString) :
    headingLoop trimmed 3 =
      if HasPrefix trimmed [35, 35, 35, 32] then some (ansiBold ++ trimmed.drop 4 ++ ansiReset)
      else if HasPrefix trimmed [35, 35, 32] then some (ansiBold ++ trimmed.drop 3 ++ ansiReset)
      else if HasPrefix trimmed [35, 32] then some (ansiBold ++ trimmed.drop 2 ++ ansiReset)
      else none := by
  have e3 : Repeat (str "#") (2 + 1) ++ str " " = [35, 35, 35, 32] := by decide
  have e2 : Repeat (str "#") (1 + 1) ++ str " " = [35, 35, 32] := by decide
  have e1 : Repeat (str "#") (0 + 1) ++ str " " = [35, 32] := by decide
  simp only [headingLoop, e3, e2, e1]
  rfl

theorem headingLoop_level (k : Nat) (hk : k = 1 ∨ k = 2 ∨ k = 3) (r : GoString) :
    headingLoop (Repeat (str "#") k ++ str " " ++ r) 3 = some (ansiBold ++ r ++ ansiReset)
    ∧ HasPrefix (Repeat (str "#") k ++ str " " ++ r) (str "```") = false := by
  have h3532 : ((35 : UInt8) == 32) = false := by decide
  rw [headingLoop_eq]
  rcases hk with rfl | rfl | rfl
  · have e : Repeat (str "#") 1 ++ str " " ++ r = 35 :: 32 :: r := rfl
    rw [e]
    simp only [hasPrefix_cons, hasPrefix_nil, h3532, beq_self_eq_true, Bool.and_false,
      Bool.false_and, Bool.true_and, Bool.and_true, if_true, if_false, Bool.false_eq_true]
    exact ⟨rfl, rfl⟩
  · have e : Repeat (str "#") 2 ++ str " " ++ r = 35 :: 35 :: 32 :: r := rfl
    rw [e]
    simp only [hasPrefix_cons, hasPrefix_nil, h3532, beq_self_eq_true, Bool.and_false,
      Bool.false_and, Bool.true_and, Bool.and_true, if_true, if_false, Bool.false_eq_true]
    exact ⟨rfl, rfl⟩
  · have e : Repeat (str "#") 3 ++ str " " ++ r = 35 :: 35 :: 35 :: 32 :: r := rfl
    rw [e]
    simp only [hasPrefix_cons, hasPrefix_nil, h3532, beq_self_eq_true, Bool.and_false,
      Bool.false_and, Bool.true_and, Bool.and_true, if_true, if_false, Bool.false_eq_true]
    exact ⟨rfl, rfl⟩

/-- C10 (heading): for a level `k` in 1..3 and a line whose trimmed form is `k` characters
`#`, one space and a remainder `r`, `renderLine` called with `inCode = false` prints exactly
`ansiBold + r + ansiReset` (no inline formatting of `r`) and leaves the renderer unchanged;
and the line `# Title` prints `"\033[1mTitle\033[0m"`. -/
theorem C10_heading (k : Nat) (hk : k = 1 ∨ k = 2 ∨ k = 3) (line r buf : GoString)
    (h : TrimSpace line = Repeat (str "#") k ++ str " " ++ r) :
    termRenderer.renderLine { buf := buf, inCode := false } line
        = ({ buf := buf, inCode := false }, [Event.print (ansiBold ++ r ++ ansiReset)])
    ∧ termRenderer.renderLine termRenderer.fresh (str "# Title")
        = (termRenderer.fresh, [Event.print (str "\x1b[1mTitle\x1b[0m")]) := by
  refine ⟨?_, by decide⟩
  have hl := headingLoop_level k hk r
  unfold termRenderer.renderLine
  simp only [h, hl.1, hl.2, Bool.false_eq_true, if_false]

/-- Witness for C10: a level-two heading with surrounding blanks and bold markers in its text. -/
theorem C10_heading_witness :
    (2 = 1 ∨ 2 = 2 ∨ 2 = 3) ∧
    TrimSpace (str "  ## **Two** ") = Repeat (str "#") 2 ++ str " " ++ str "**Two**" ∧
    (termRenderer.renderLine { buf := str "x", inCode := false } (str "  ## **Two** ")
        = ({ buf := str "x", inCode := false },
            [Event.print (ansiBold ++ str "**Two**" ++ ansiReset)])
    ∧ termRenderer.renderLine termRenderer.fresh (str "# Title")
        = (termRenderer.fresh, [Event.print (str "\x1b[1mTitle\x1b[0m")])) :=
  ⟨by decide, by decide,
    C10_heading 2 (by decide) (str "  ## **Two** ") (str "**Two**") (str "x") (by decide)⟩

/-! ## Claims about single calls on the renderer -/

/-- C11 (final partial line): for a non-empty text `p` without a newline, `write(p)` on a
renderer whose buffer is empty prints nothing and leaves `p` in the buffer; the `close`
that follows does exactly what `renderLine(p)` does (its trace, with no newline added,
and its flag) and empties the buffer; so `write(p)` then `close` renders `p` once, and a
further `close` prints nothing. -/
theorem C11_final_partial_line (r : termRenderer) (p : GoString) (hbuf : r.buf = [])
    (hne : p ≠ []) (hnl : (10 : UInt8) ∉ p) :
    r.write p = ({ buf := p, inCode := r.inCode }, [])
    ∧ (r.write p).1.close
        = termRenderer.renderLine { buf := [], inCode := r.inCode } p
    ∧ run r [Call.write p, Call.close]
        = termRenderer.renderLine { buf := [], inCode := r.inCode } p
    ∧ (run r [Call.write p, Call.close, Call.close]).2
        = (termRenderer.renderLine { buf := [], inCode := r.inCode } p).2 := by
  have hw : r.write p = ({ buf := p, inCode := r.inCode }, []) := by
    rw [write_eq, hbuf, List.nil_append, splitLines_of_not_mem p hnl]
    rfl
  have hc : (r.write p).1.close
      = termRenderer.renderLine { buf := [], inCode := r.inCode } p := by
    rw [hw, close_of_not_mem _ hnl, renderLine_eq]
    simp only [hne, if_false]
  have hcc : ((r.write p).1.close).1.close = (((r.write p).1.close).1, []) := by
    rw [hc, renderLine_eq]
    rfl
  refine ⟨hw, hc, ?_, ?_⟩
  · rw [run_write, run_close, hc, hw]
    simp only [run, List.nil_append, List.append_nil]
  · rw [run_write, run_close, run_close, hcc, hc, hw]
    simp only [run, List.nil_append, List.append_nil]

/-- Witness for C11: the partial line `# Ti` given to a fresh renderer. -/
theorem C11_final_partial_line_witness :
    termRenderer.fresh.buf = [] ∧ str "# Ti" ≠ [] ∧ (10 : UInt8) ∉ str "# Ti" ∧
    (termRenderer.fresh.write (str "# Ti")
        = ({ buf := str "# Ti", inCode := termRenderer.fresh.inCode }, [])
    ∧ (termRenderer.fresh.write (str "# Ti")).1.close
        = termRenderer.renderLine { buf := [], inCode := termRenderer.fresh.inCode } (str "# Ti")
    ∧ run termRenderer.fresh [Call.write (str "# Ti"), Call.close]
        = termRenderer.renderLine { buf := [], inCode := termRenderer.fresh.inCode } (str "# Ti")
    ∧ (run termRenderer.fresh [Call.write (str "# Ti"), Call.close, Call.close]).2
        = (termRenderer.renderLine { buf := [], inCode := termRenderer.fresh.inCode }
            (str "# Ti")).2) :=
  ⟨rfl, by decide, by decide,
    C11_final_partial_line termRenderer.fresh (str "# Ti") rfl (by decide) (by decide)⟩

/-- C13 (empty push is a no-op): in every state reached from a fresh renderer by `write`
and `close` calls, `write("")` prints nothing (its trace is empty) and leaves the buffer
and `inCode` as they were. -/
theorem C13_empty_write_noop (calls : List Call) :
    (run termRenderer.fresh calls).1.write (str "")
      = ((run termRenderer.fresh calls).1, []) :=
  write_nil _ (run_buf_not_mem calls _ fresh_buf_not_mem)

/-- C14 (close is idempotent): in every state of a renderer, a second `close` right after
a first prints nothing (its trace is empty) and leaves the state of the first `close`,
whose buffer is empty, as it is. -/
theorem C14_close_idempotent (r : termRenderer) :
    r.close.1.close = (r.close.1, [])
    ∧ r.close.1.buf = []
    ∧ run r [Call.close, Call.close] = r.close := by
  have hb : r.close.1.buf = [] := by
    rw [close_eq]; split <;> rfl
  have hc : r.close.1.close = (r.close.1, []) := by
    rw [close_of_not_mem _ (by rw [hb]; exact List.not_mem_nil _)]
    simp only [hb, if_true]
    rw [← hb]
  refine ⟨hc, hb, ?_⟩
  rw [run_close, run_close, hc]
  simp only [run, List.append_nil]

/-- C16 (fence delimiter line): for a line whose trimmed form starts with three backticks,
whatever follows them and whatever blanks surround them, and for either value of `inCode`,
`renderLine` prints nothing, negates `inCode` and leaves the buffer alone. -/
theorem C16_fence_line (r : termRenderer) (line : GoString)
    (h : HasPrefix (TrimSpace line) (str "```") = true) :
    r.renderLine line = ({ buf := r.buf, inCode := !r.inCode }, [Event.toggle])
    ∧ printed (r.renderLine line).2 = []
    ∧ (r.renderLine line).1.inCode = !r.inCode := by
  have e : r.renderLine line = ({ buf := r.buf, inCode := !r.inCode }, [Event.toggle]) := by
    unfold termRenderer.renderLine
    simp only [h, if_true]
  rw [e]
  exact ⟨rfl, rfl, rfl⟩

/-- Witness for C16: an indented fence with a language tag, met inside a code block. -/
theorem C16_fence_line_witness :
    HasPrefix (TrimSpace (str " \t````go \r")) (str "```") = true ∧
    (termRenderer.renderLine { buf := str "x", inCode := true } (str " \t````go \r")
        = ({ buf := str "x", inCode := false }, [Event.toggle])
    ∧ printed (termRenderer.renderLine { buf := str "x", inCode := true }
        (str " \t````go \r")).2 = []
    ∧ (termRenderer.renderLine { buf := str "x", inCode := true }
        (str " \t````go \r")).1.inCode = false) :=
  ⟨by decide, C16_fence_line { buf := str "x", inCode := true } (str " \t````go \r") (by decide)⟩

/-! ## A whole session: `write` calls, then `close` -/

theorem session_eq (frs : List GoString) :
    run termRenderer.fresh (frs.map Call.write ++ [Call.close])
      = if (splitLines frs.flatten).2 = [] then
          ({ buf := [], inCode := (renderLines false (splitLines frs.flatten).1).1 },
            (renderLines false (splitLines frs.flatten).1).2)
        else
          ({ buf := [],
             inCode := lineFlag (renderLines false (splitLines frs.flatten).1).1
               (splitLines frs.flatten).2 },
            (renderLines false (splitLines frs.flatten).1).2
              ++ lineTrace (renderLines false (splitLines frs.flatten).1).1
                  (splitLines frs.flatten).2) := by
  rw [run_append, run_writes frs _ fresh_buf_not_mem, run_close, write_eq]
  have hf : termRenderer.fresh.buf ++ frs.flatten = frs.flatten := rfl
  have hi : termRenderer.fresh.inCode = false := rfl
  rw [hf, hi, close_of_not_mem _ (splitLines_rest_not_mem _)]
  by_cases h : (splitLines frs.flatten).2 = []
  · simp only [h, if_true, run, List.append_nil]
  · simp only [h, if_false, run, List.append_nil]

theorem lineFlag_eq (ic : Bool) (line : GoString) :
    lineFlag ic line = if isFence line then !ic else ic := by
  unfold lineFlag isFence termRenderer.renderLine
  simp only []
  split
  · rfl
  · split
    · rfl
    · split <;> rfl

theorem renderLines_flag : ∀ (ls : List GoString) (ic : Bool),
    ((renderLines ic ls).1 = true ↔ (ic = true ↔ ¬ ls.countP isFence % 2 = 1)) := by
  intro ls
  induction ls with
  | nil => intro ic; simp [renderLines]
  | cons l ls ih =>
    intro ic
    rw [renderLines, ih, lineFlag_eq, List.countP_cons]
    by_cases hf : isFence l = true
    · simp only [hf, if_true]
      cases ic <;> simp <;> omega
    · simp only [hf, if_false, Bool.false_eq_true, Nat.add_zero]

theorem renderLines_snoc (ls : List GoString) (l : GoString) (ic : Bool) :
    (renderLines ic (ls ++ [l])).1 = lineFlag (renderLines ic ls).1 l := by
  rw [renderLines_append]
  rfl

/-- C12 (fence state is the parity of the fence delimiters of the whole stream): for every
text given in any fragmentation to a fresh renderer that is then closed, the final
`inCode` is true exactly when the number of lines of the text (newline-separated, the
non-empty unterminated last line included) whose trimmed form starts with three backticks
is odd. -/
theorem C12_fence_parity (frs : List GoString) :
    ((run termRenderer.fresh (frs.map Call.write ++ [Call.close])).1.inCode = true
      ↔ (textLines frs.flatten).countP isFence % 2 = 1)
    ∧ textLines (str "a\n ```go\nb\n```") = [str "a", str " ```go", str "b", str "```"]
    ∧ (run termRenderer.fresh
        [Call.write (str "a\n ``"), Call.write (str "`go\nb"), Call.close]).1.inCode = true
    ∧ (run termRenderer.fresh
        [Call.write (str "a\n ``"), Call.write (str "`go\nb\n```"), Call.close]).1.inCode
        = false := by
  refine ⟨?_, by decide, by decide, by decide⟩
  have key : (run termRenderer.fresh (frs.map Call.write ++ [Call.close])).1.inCode
      = (renderLines false (textLines frs.flatten)).1 := by
    rw [session_eq]
    unfold textLines
    by_cases h : (splitLines frs.flatten).2 = []
    · simp only [h, if_true, List.append_nil]
    · simp only [h, if_false, renderLines_snoc]
  rw [key, renderLines_flag]
  simp

/-! ## Newlines in the output -/

theorem trimLeading_mem (encs : List GoString) (x : UInt8) :
    ∀ (fuel : Nat) (s : GoString), x ∈ trimLeading encs fuel s → x ∈ s := by
  intro fuel
  induction fuel with
  | zero => intro s h; exact h
  | succ n ih =>
    intro s h
    rw [trimLeading] at h
    split at h
    · exact List.mem_of_mem_drop (ih _ h)
    · exact h

theorem TrimSpace_mem (x : UInt8) (s : GoString) (h : x ∈ TrimSpace s) : x ∈ s := by
  unfold TrimSpace at h
  simp only [List.mem_reverse] at h
  have h1 := trimLeading_mem _ x _ _ h
  rw [List.mem_reverse] at h1
  exact trimLeading_mem _ x _ _ h1

theorem renderInline_not_mem (x : UInt8) (hB : x ∉ ansiBold) (hR : x ∉ ansiReset)
    (hC : x ∉ ansiCyan) : ∀ (n : Nat) (t : GoString), t.length = n → x ∉ t →
    x ∉ renderInline t := by
  intro n
  induction n using Nat.strong_induction_on with
  | _ n ih =>
    intro t hn ht
    cases t with
    | nil => simp [renderInline_nil]
    | cons c t =>
      have hts : ∀ k, x ∉ (c :: t).drop k := fun k hm => ht (List.mem_of_mem_drop hm)
      have hsl : ∀ a b, x ∉ slice (c :: t) a b := fun a b hm =>
        ht (List.mem_of_mem_take (List.mem_of_mem_drop hm))
      rw [renderInline_step _ (by simp)]
      cases hb : boldAt (c :: t) 0 with
      | some e =>
        simp only []
        have hbd := boldAt_bound _ 0 e hb
        have hl := slice_length_le (c :: t) 2 e
        have h1 := ih _ (by rw [← hn]; omega) (slice (c :: t) 2 (2 + e)) rfl (hsl _ _)
        have h2 := ih _ (by rw [← hn]; simp only [List.length_drop]; omega)
          ((c :: t).drop (2 + e + 2)) rfl (hts _)
        simp only [List.mem_append, not_or]
        exact ⟨⟨⟨hB, h1⟩, hR⟩, h2⟩
      | none =>
        simp only []
        cases hcode : codeAt (c :: t) 0 with
        | some e =>
          simp only []
          have hcd := codeAt_bound _ 0 e hcode
          have h2 := ih _ (by rw [← hn]; simp only [List.length_drop]; omega)
            ((c :: t).drop (1 + e + 1)) rfl (hts _)
          simp only [List.mem_append, not_or]
          exact ⟨⟨⟨hC, hsl _ _⟩, hR⟩, h2⟩
        | none =>
          simp only []
          have h2 := ih _ (by rw [← hn]; simp only [List.length_drop, List.length_cons]; omega)
            ((c :: t).drop 1) rfl (hts _)
          simp only [List.mem_append, not_or]
          refine ⟨?_, h2⟩
          intro hm
          apply ht
          simp only [List.getElem?_cons_zero, Option.toList, List.mem_singleton] at hm
          rw [hm]; exact List.mem_cons_self _ _

theorem headingLoop_some (trimmed text : GoString) (h : headingLoop trimmed 3 = some text) :
    ∃ k, text = ansiBold ++ trimmed.drop k ++ ansiReset := by
  rw [headingLoop_eq] at h
  split at h
  · exact ⟨4, (Option.some.inj h).symm⟩
  · split at h
    · exact ⟨3, (Option.some.inj h).symm⟩
    · split at h
      · exact ⟨2, (Option.some.inj h).symm⟩
      · simp at h

theorem lineTrace_not_mem (ic : Bool) (line : GoString) (h : (10 : UInt8) ∉ line) :
    (10 : UInt8) ∉ printed (lineTrace ic line) := by
  have hB : (10 : UInt8) ∉ ansiBold := by decide
  have hR : (10 : UInt8) ∉ ansiReset := by decide
  have hC : (10 : UInt8) ∉ ansiCyan := by decide
  have hD : (10 : UInt8) ∉ ansiDim := by decide
  have hS : (10 : UInt8) ∉ str "  " := by decide
  unfold lineTrace termRenderer.renderLine
  simp only []
  split
  · simp [printed]
  · split
    · simp only [printed, List.append_nil, List.mem_append, not_or]
      exact ⟨⟨⟨hS, hD⟩, h⟩, hR⟩
    · split
      · rename_i text htext
        obtain ⟨k, hk⟩ := headingLoop_some _ _ htext
        simp only [printed, List.append_nil, hk, List.mem_append, not_or]
        exact ⟨⟨hB, fun hm => h (TrimSpace_mem _ _ (List.mem_of_mem_drop hm))⟩, hR⟩
      · simp only [printed, List.append_nil]
        exact renderInline_not_mem 10 hB hR hC _ line rfl h

theorem splitLines_lines_not_mem : ∀ s : GoString, ∀ l ∈ (splitLines s).1, (10 : UInt8) ∉ l := by
  apply lines_induction
  · intro l hl x hx; rw [splitLines_of_not_mem l hl] at hx; simp at hx
  · intro l rest hl ih x hx
    rw [splitLines_append_nl rest l hl] at hx
    simp only [List.mem_cons] at hx
    rcases hx with rfl | hx
    · exact hl
    · exact ih x hx

theorem count_nl_eq : ∀ s : GoString, s.count 10 = (splitLines s).1.length := by
  apply lines_induction
  · intro l hl
    rw [splitLines_of_not_mem l hl, List.count_eq_zero_of_not_mem hl]; rfl
  · intro l rest hl ih
    rw [splitLines_append_nl rest l hl, List.count_append, List.count_cons_self,
      List.count_eq_zero_of_not_mem hl, ih]
    simp only [List.length_cons]; omega

theorem printed_renderLines : ∀ (ls : List GoString) (ic : Bool),
    printed (renderLines ic ls).2 = (lineOutputs ic ls).flatMap (fun o => o ++ str "\n") := by
  intro ls
  induction ls with
  | nil => intro ic; rfl
  | cons l ls ih =>
    intro ic
    rw [renderLines, lineOutputs, List.flatMap_cons]
    show printed (lineTrace ic l ++ [Event.print (str "\n")]
      ++ (renderLines (lineFlag ic l) ls).2) = _
    rw [printed_append, printed_append, ih]
    simp only [printed, List.append_nil, List.append_assoc]

theorem lineOutputs_not_mem : ∀ (ls : List GoString) (ic : Bool),
    (∀ l ∈ ls, (10 : UInt8) ∉ l) → ∀ o ∈ lineOutputs ic ls, (10 : UInt8) ∉ o := by
  intro ls
  induction ls with
  | nil => intro ic _ o ho; simp [lineOutputs] at ho
  | cons l ls ih =>
    intro ic h o ho
    rw [lineOutputs, List.mem_cons] at ho
    rcases ho with rfl | ho
    · exact lineTrace_not_mem ic l (h l (List.mem_cons_self _ _))
    · exact ih _ (fun x hx => h x (List.mem_cons_of_mem _ hx)) o ho

theorem lineOutputs_length : ∀ (ls : List GoString) (ic : Bool),
    (lineOutputs ic ls).length = ls.length := by
  intro ls
  induction ls with
  | nil => intro ic; rfl
  | cons l ls ih => intro ic; rw [lineOutputs, List.length_cons, ih, List.length_cons]

theorem count_nl_flatMap : ∀ outs : List GoString, (∀ o ∈ outs, (10 : UInt8) ∉ o) →
    (outs.flatMap (fun o => o ++ str "\n")).count 10 = outs.length := by
  intro outs
  induction outs with
  | nil => intro _; rfl
  | cons o outs ih =>
    intro h
    rw [List.flatMap_cons, List.count_append, List.count_append,
      ih (fun x hx => h x (List.mem_cons_of_mem _ hx)),
      List.count_eq_zero_of_not_mem (h o (List.mem_cons_self _ _)), str_nl]
    simp only [List.count_cons_self, List.count_nil, List.length_cons]; omega

/-- C17 (newline accounting): for every text given in any fragmentation to a fresh
renderer that is then closed, the printed output is, for each newline-terminated line of
the text in order, what `renderLine` prints for it followed by one newline, and then what
`renderLine` prints for the unterminated rest (nothing when it is empty) with no newline
after it; nothing that `renderLine` prints holds a newline, so the output holds exactly as
many newlines as the text. -/
theorem C17_newline_accounting (frs : List GoString) :
    (printed (run termRenderer.fresh (frs.map Call.write ++ [Call.close])).2).count 10
        = frs.flatten.count 10
    ∧ printed (run termRenderer.fresh (frs.map Call.write ++ [Call.close])).2
        = (lineOutputs false (splitLines frs.flatten).1).flatMap (fun o => o ++ str "\n")
          ++ (if (splitLines frs.flatten).2 = [] then []
              else printed (lineTrace (renderLines false (splitLines frs.flatten).1).1
                (splitLines frs.flatten).2))
    ∧ (∀ o ∈ lineOutputs false (splitLines frs.flatten).1, (10 : UInt8) ∉ o)
    ∧ (10 : UInt8) ∉ printed (lineTrace (renderLines false (splitLines frs.flatten).1).1
        (splitLines frs.flatten).2) := by
  have hout : printed (run termRenderer.fresh (frs.map Call.write ++ [Call.close])).2
        = (lineOutputs false (splitLines frs.flatten).1).flatMap (fun o => o ++ str "\n")
          ++ (if (splitLines frs.flatten).2 = [] then []
              else printed (lineTrace (renderLines false (splitLines frs.flatten).1).1
                (splitLines frs.flatten).2)) := by
    rw [session_eq]
    by_cases h : (splitLines frs.flatten).2 = []
    · simp only [h, if_true, printed_renderLines, List.append_nil]
    · simp only [h, if_false, printed_append, printed_renderLines]
  have hlines := lineOutputs_not_mem _ false (splitLines_lines_not_mem frs.flatten)
  have hrest := lineTrace_not_mem (renderLines false (splitLines frs.flatten).1).1 _
    (splitLines_rest_not_mem frs.flatten)
  refine ⟨?_, hout, hlines, hrest⟩
  have hc := count_nl_eq frs.flatten
  rw [hout, List.count_append, count_nl_flatMap _ hlines, lineOutputs_length, hc]
  by_cases h : (splitLines frs.flatten).2 = []
  · simp only [h, if_true, List.count_nil, Nat.add_zero]
  · simp only [h, if_false, List.count_eq_zero_of_not_mem hrest, Nat.add_zero]

/-! ## Claims about `parseArgs` -/

theorem Join_eq_intercalate (sep : GoString) : ∀ elems : List GoString,
    Join elems sep = sep.intercalate elems := by
  intro elems
  induction elems with
  | nil => rfl
  | cons a l ih =>
    cases l with
    | nil => simp [Join, List.intercalate]
    | cons b more =>
      rw [Join, ih]
      simp [List.intercalate, List.intersperse]

theorem specMode_flag (m : mode) (flag : GoString) (args : List GoString)
    (h : flag ∈ flags) : specMode m (flag :: args) = specMode (modeOfFlag flag) args := by
  unfold specMode
  rw [List.filter_cons_of_pos (by simpa using h)]
  cases hl : args.filter (fun a => decide (a ∈ flags)) with
  | nil => rfl
  | cons g l => rw [List.getLast?_cons_cons]; simp only [List.getLast?_cons]

theorem specMode_other (m : mode) (arg : GoString) (args : List GoString)
    (h : arg ∉ flags) : specMode m (arg :: args) = specMode m args := by
  unfold specMode
  rw [List.filter_cons_of_neg (by simpa using h)]

theorem parseArgsLoop_eq : ∀ (args : List GoString) (m : mode) (rest : List GoString),
    parseArgsLoop m rest args
      = (specMode m args, rest ++ args.filter (fun a => decide (a ∉ flags))) := by
  intro args
  induction args with
  | nil => intro m rest; simp [parseArgsLoop, specMode]
  | cons arg args ih =>
    intro m rest
    rw [parseArgsLoop]
    by_cases h1 : arg = str "--explain" ∨ arg = str "-e"
    · have hm : arg ∈ flags := by rcases h1 with rfl | rfl <;> decide
      have hmode : modeOfFlag arg = mode.modeExplain := by rcases h1 with rfl | rfl <;> decide
      rw [if_pos h1, ih, specMode_flag m arg args hm, hmode,
        List.filter_cons_of_neg (by simpa using hm)]
    · rw [if_neg h1]
      by_cases h2 : arg = str "--confirm" ∨ arg = str "-c"
      · have hm : arg ∈ flags := by rcases h2 with rfl | rfl <;> decide
        have hmode : modeOfFlag arg = mode.modeConfirm := by
          rcases h2 with rfl | rfl <;> decide
        rw [if_pos h2, ih, specMode_flag m arg args hm, hmode,
          List.filter_cons_of_neg (by simpa using hm)]
      · rw [if_neg h2]
        by_cases h3 : arg = str "--yolo" ∨ arg = str "-y"
        · have hm : arg ∈ flags := by rcases h3 with rfl | rfl <;> decide
          have hmode : modeOfFlag arg = mode.modeYolo := by
            rcases h3 with rfl | rfl <;> decide
          rw [if_pos h3, ih, specMode_flag m arg args hm, hmode,
            List.filter_cons_of_neg (by simpa using hm)]
        · have hm : arg ∉ flags := by
            simp only [flags, List.mem_cons, List.mem_singleton, List.not_mem_nil, or_false]
            tauto
          rw [if_neg h3, ih, specMode_other m arg args hm,
            List.filter_cons_of_pos (by simpa using hm), List.append_assoc,
            List.singleton_append]

/-- C19 (`parseArgs`): for every argument list, the returned question is the arguments
that are not one of the six flags, in their order, joined by single spaces, and the
returned mode is that of the last flag in the list, `modeConfirm` when there is none. -/
theorem C19_parseArgs (args : List GoString) :
    parseArgs args = (specMode mode.modeConfirm args, specQuestion args)
    ∧ parseArgs [str "-y", str "list", str "-c", str "big", str "files", str "--explain"]
        = (mode.modeExplain, str "list big files")
    ∧ parseArgs [str "find", str "x"] = (mode.modeConfirm, str "find x") := by
  refine ⟨?_, by decide, by decide⟩
  unfold parseArgs specQuestion
  rw [parseArgsLoop_eq, Join_eq_intercalate]
  rfl

/-! ## What `renderInline` keeps of its input -/

theorem Index_spec (sub : GoString) : ∀ (x : GoString) (e : Nat), Index x sub = some e →
    x = x.take e ++ sub ++ x.drop (e + sub.length) := by
  intro x
  induction x with
  | nil =>
    intro e h
    have hle := Index_le sub [] e h
    simp only [List.length_nil, Nat.le_zero, Nat.add_eq_zero] at hle
    have hs : sub = [] := List.length_eq_zero.mp hle.2
    subst hs
    simp
  | cons c x ih =>
    intro e h
    rw [Index_cons] at h
    split at h
    · rename_i hp
      have he : e = 0 := by simpa using h.symm
      subst he
      have := List.prefix_iff_eq_append.mp (List.isPrefixOf_iff_prefix.mp hp)
      simpa using this.symm
    · cases hI : Index x sub with
      | none => simp [hI] at h
      | some e1 =>
        simp only [hI, Option.map_some', Option.some.injEq] at h
        subst h
        have := ih e1 hI
        simp only [List.take_succ_cons, List.cons_append, Nat.add_right_comm e1 1 sub.length,
          List.drop_succ_cons]
        exact congrArg (List.cons c) this

theorem boldAt_split (s : GoString) (e : Nat) (h : boldAt s 0 = some e) :
    s = 42 :: 42 :: (slice s 2 (2 + e) ++ 42 :: 42 :: s.drop (2 + e + 2)) := by
  unfold boldAt at h
  split at h
  · rename_i hc
    rw [str_star2] at h
    have hsp := Index_spec _ _ _ h
    match s, hc, hsp with
    | a :: b :: s2, hc, hsp =>
      simp only [Nat.zero_add, List.getElem?_cons_zero, List.getElem?_cons_succ,
        Option.some.injEq] at hc
      obtain ⟨_, ha, hb⟩ := hc
      subst ha; subst hb
      simp only [List.drop_succ_cons, List.drop_zero, List.length_cons, List.length_nil,
        Nat.zero_add] at hsp
      have hsl : slice (42 :: 42 :: s2) 2 (2 + e) = s2.take e := by
        simp [slice, Nat.add_comm 2 e]
      have hdr : (42 :: 42 :: s2).drop (2 + e + 2) = s2.drop (e + 2) := by
        have : 2 + e + 2 = (e + 2) + 2 := by omega
        rw [this]; rfl
      rw [hsl, hdr]
      simpa using hsp
    | [], hc, _ => simp at hc
    | [a], hc, _ => simp at hc
  · simp at h

theorem codeAt_split (s : GoString) (e : Nat) (h : codeAt s 0 = some e) :
    s = 96 :: (slice s 1 (1 + e) ++ 96 :: s.drop (1 + e + 1)) := by
  unfold codeAt at h
  split at h
  · rename_i hc
    rw [str_tick] at h
    have hsp := Index_spec _ _ _ h
    match s, hc, hsp with
    | a :: s2, hc, hsp =>
      simp only [List.getElem?_cons_zero, Option.some.injEq] at hc
      subst hc
      simp only [Nat.zero_add, List.drop_succ_cons, List.drop_zero, List.length_cons,
        List.length_nil] at hsp
      have hsl : slice (96 :: s2) 1 (1 + e) = s2.take e := by
        simp [slice, Nat.add_comm 1 e]
      have hdr : (96 :: s2).drop (1 + e + 1) = s2.drop (e + 1) := by
        have : 1 + e + 1 = (e + 1) + 1 := by omega
        rw [this]; rfl
      rw [hsl, hdr]
      simpa using hsp
    | [], hc, _ => simp at hc
  · simp at h

theorem renderInline_cases (s : GoString) (hs : s ≠ []) :
    (∃ t rest, s = 42 :: 42 :: (t ++ 42 :: 42 :: rest)
        ∧ renderInline s = ansiBold ++ renderInline t ++ ansiReset ++ renderInline rest)
    ∨ (∃ t rest, s = 96 :: (t ++ 96 :: rest)
        ∧ renderInline s = ansiCyan ++ t ++ ansiReset ++ renderInline rest)
    ∨ (∃ c rest, s = c :: rest ∧ renderInline s = c :: renderInline rest) := by
  have hpos : 0 < s.length := List.length_pos.mpr hs
  have hstep := renderInline_step s hpos
  cases hb : boldAt s 0 with
  | some e =>
    left
    rw [hb] at hstep
    exact ⟨_, _, boldAt_split s e hb, hstep⟩
  | none =>
    right
    rw [hb] at hstep
    cases hc : codeAt s 0 with
    | some e =>
      left
      rw [hc] at hstep
      exact ⟨_, _, codeAt_split s e hc, hstep⟩
    | none =>
      right
      cases s with
      | nil => exact absurd rfl hs
      | cons c rest => exact ⟨c, rest, rfl, renderInline_literal c rest hb hc⟩

theorem plainBytes_sublist : ∀ (n : Nat) (s : GoString), s.length = n →
    (plainBytes s).Sublist (renderInline s) := by
  intro n
  induction n using Nat.strong_induction_on with
  | _ n ih =>
    intro s hn
    by_cases hs : s = []
    · subst hs; exact List.Sublist.refl _
    · rcases renderInline_cases s hs with ⟨t, rest, hst, hr⟩ | ⟨t, rest, hst, hr⟩
          | ⟨c, rest, hst, hr⟩
      · have hlen : s.length = t.length + rest.length + 4 := by
          rw [hst]; simp only [List.length_cons, List.length_append]; omega
        have h1 := ih t.length (by omega) t rfl
        have h2 := ih rest.length (by omega) rest rfl
        have hp : plainBytes s = plainBytes t ++ plainBytes rest := by
          rw [hst]; simp [plainBytes, List.filter_cons, List.filter_append]
        rw [hp, hr]
        exact ((h1.trans (List.sublist_append_right _ _)).trans
          (List.sublist_append_left _ _)).append h2
      · have hlen : s.length = t.length + rest.length + 2 := by
          rw [hst]; simp only [List.length_cons, List.length_append]; omega
        have h2 := ih rest.length (by omega) rest rfl
        have hp : plainBytes s = plainBytes t ++ plainBytes rest := by
          rw [hst]; simp [plainBytes, List.filter_cons, List.filter_append]
        have h1 : (plainBytes t).Sublist t := List.filter_sublist _
        rw [hp, hr]
        exact ((h1.trans (List.sublist_append_right _ _)).trans
          (List.sublist_append_left _ _)).append h2
      · have hlen : s.length = rest.length + 1 := by rw [hst]; rfl
        have h2 := ih rest.length (by omega) rest rfl
        rw [hr, hst]
        unfold plainBytes
        rw [List.filter_cons]
        split
        · exact h2.cons₂ c
        · exact h2.cons c

/-- C18 (no content is dropped by the inline formatter): for every text `s`, the bytes of
`s` other than `*` and the backtick, in their order, are a subsequence of
`renderInline(s)`. The only bytes left out are those of a matched marker pair: a non-empty
`s` either opens with a matched `**` pair, whose four asterisks are replaced and whose
inside and remainder are formatted in turn; or with a matched backtick pair, whose inside
is kept as it is; or its first byte is kept and the remainder is formatted. -/
theorem C18_no_content_dropped (s : GoString) :
    (plainBytes s).Sublist (renderInline s)
    ∧ (s = []
      ∨ (∃ t rest, s = str "**" ++ t ++ str "**" ++ rest
          ∧ renderInline s = ansiBold ++ renderInline t ++ ansiReset ++ renderInline rest)
      ∨ (∃ t rest, s = str "`" ++ t ++ str "`" ++ rest
          ∧ renderInline s = ansiCyan ++ t ++ ansiReset ++ renderInline rest)
      ∨ (∃ c rest, s = c :: rest ∧ renderInline s = c :: renderInline rest)) := by
  refine ⟨plainBytes_sublist _ s rfl, ?_⟩
  by_cases hs : s = []
  · exact Or.inl hs
  · right
    rcases renderInline_cases s hs with ⟨t, rest, hst, hr⟩ | ⟨t, rest, hst, hr⟩
        | ⟨c, rest, hst, hr⟩
    · left
      refine ⟨t, rest, ?_, hr⟩
      rw [hst, str_star2]
      simp only [List.append_assoc, List.cons_append, List.nil_append]
    · right; left
      refine ⟨t, rest, ?_, hr⟩
      rw [hst, str_tick]
      simp only [List.append_assoc, List.cons_append, List.nil_append]
    · right; right
      exact ⟨c, rest, hst, hr⟩

/-! ## `renderInline` never panics and its loop ends -/

theorem byteAt_eq (s : GoString) (i : Nat) (h : i < s.length) :
    byteAt s i = some (s.get ⟨i, h⟩) := by
  unfold byteAt
  rw [if_pos h, List.getElem?_eq_getElem h]
  rfl

theorem boldTest_eq (s : GoString) (i : Nat) (hi : i < s.length) :
    boldTest s i = some (boldAt s i) := by
  unfold boldTest boldAt
  by_cases h1 : i + 1 < s.length
  · have hs : sliceFrom s (i + 2) = some (s.drop (i + 2)) := by
      unfold sliceFrom; rw [if_pos (by omega)]
    rw [if_pos h1, byteAt_eq s i hi, byteAt_eq s (i + 1) h1, hs,
      List.getElem?_eq_getElem hi, List.getElem?_eq_getElem h1]
    simp only [Option.some_bind, Option.map_some', Option.some.injEq, h1, true_and]
    by_cases hc : s.get ⟨i, hi⟩ = 42
    · by_cases hd : s.get ⟨i + 1, h1⟩ = 42
      · simp only [List.get_eq_getElem] at hc hd
        simp only [List.get_eq_getElem, hc, hd, if_true, and_self]
      · simp only [List.get_eq_getElem] at hc hd
        simp only [List.get_eq_getElem, hc, hd, if_true, if_false, and_false]
    · simp only [List.get_eq_getElem] at hc
      simp only [List.get_eq_getElem, hc, if_false, false_and]
  · rw [if_neg h1, if_neg (fun h => h1 h.1)]

theorem codeTest_eq (s : GoString) (i : Nat) (hi : i < s.length) :
    codeTest s i = some (codeAt s i) := by
  unfold codeTest codeAt
  have hs : sliceFrom s (i + 1) = some (s.drop (i + 1)) := by
    unfold sliceFrom; rw [if_pos (by omega)]
  rw [byteAt_eq s i hi, hs, List.getElem?_eq_getElem hi]
  simp only [Option.some_bind, Option.map_some', Option.some.injEq, List.get_eq_getElem]
  by_cases hc : s[i] = 96
  · simp only [hc, if_true]
  · simp only [hc, if_false]

theorem sliceBetween_eq (s : GoString) (i j : Nat) (h1 : i ≤ j) (h2 : j ≤ s.length) :
    sliceBetween s i j = some (slice s i j) := by
  unfold sliceBetween; rw [if_pos ⟨h1, h2⟩]

theorem renderInline_drop_step (s : GoString) (i : Nat) (hi : i < s.length) :
    renderInline (s.drop i) =
      match boldAt s i with
      | some e =>
        ansiBold ++ renderInline (slice s (i + 2) (i + 2 + e)) ++ ansiReset
          ++ renderInline (s.drop (i + 2 + e + 2))
      | none =>
        match codeAt s i with
        | some e =>
          ansiCyan ++ slice s (i + 1) (i + 1 + e) ++ ansiReset
            ++ renderInline (s.drop (i + 1 + e + 1))
        | none => (s[i]?).toList ++ renderInline (s.drop (i + 1)) := by
  rw [renderInline_step (s.drop i) (by simp only [List.length_drop]; omega), boldAt_drop,
    codeAt_drop]
  simp only [slice_drop, List.drop_drop, List.getElem?_drop, Nat.add_zero, ← Nat.add_assoc]

theorem renderInlineChecked_eq : ∀ (fuel : Nat) (s : GoString) (i : Nat) (out : GoString),
    s.length - i ≤ fuel →
    renderInlineChecked fuel s i out = some (out ++ renderInline (s.drop i)) := by
  intro fuel
  induction fuel with
  | zero =>
    intro s i out h
    have hi : ¬ i < s.length := by omega
    rw [renderInlineChecked, if_neg hi, List.drop_eq_nil_of_le (by omega), renderInline_nil,
      List.append_nil]
  | succ n ih =>
    intro s i out h
    rw [renderInlineChecked]
    by_cases hi : i < s.length
    · rw [if_pos hi, boldTest_eq s i hi, Option.some_bind, renderInline_drop_step s i hi]
      cases hb : boldAt s i with
      | some e =>
        have hbd := boldAt_bound s i e hb
        have hl := slice_length_le s (i + 2) e
        simp only []
        rw [sliceBetween_eq s _ _ (by omega) (by omega), Option.some_bind,
          ih _ 0 [] (by omega), Option.some_bind, ih s _ _ (by omega)]
        simp only [List.nil_append, List.drop_zero, List.append_assoc]
      | none =>
        simp only []
        rw [codeTest_eq s i hi, Option.some_bind]
        cases hc : codeAt s i with
        | some e =>
          have hcd := codeAt_bound s i e hc
          simp only []
          rw [sliceBetween_eq s _ _ (by omega) (by omega), Option.some_bind,
            ih s _ _ (by omega)]
          simp only [List.append_assoc]
        | none =>
          simp only []
          rw [byteAt_eq s i hi, Option.some_bind, ih s _ _ (by omega),
            List.getElem?_eq_getElem hi]
          simp only [List.get_eq_getElem, Option.toList, List.append_assoc]
    · rw [if_neg hi, List.drop_eq_nil_of_le (by omega), renderInline_nil, List.append_nil]

/-- C15 (`renderInline` is total): for every input text, the loop run with every index and
slice expression checked as Go checks them (`s[i]`, `s[i+1]`, `s[i+2:]`, `s[i+1:]`,
`s[i+2:i+2+end]`, `s[i+1:i+1+end]`) never panics and ends within `len(s)` iterations,
with the result of `renderInline`. It ends because each iteration moves the scan index
forward, to an index that is at most `len(s)`, and each recursive call is on a strictly
shorter text. Texts that end in a lone `*` or backtick, unterminated markers and the empty
text are among the examples. -/
theorem C15_renderInline_total (s : GoString) :
    renderInlineChecked s.length s 0 [] = some (renderInline s)
    ∧ (∀ i e, boldAt s i = some e →
        i < i + 2 + e + 2 ∧ i + 2 + e + 2 ≤ s.length
          ∧ (slice s (i + 2) (i + 2 + e)).length < s.length)
    ∧ (∀ i e, codeAt s i = some e → i < i + 1 + e + 1 ∧ i + 1 + e + 1 ≤ s.length)
    ∧ renderInlineChecked 0 (str "") 0 [] = some (str "")
    ∧ renderInlineChecked 2 (str "a*") 0 [] = some (str "a*")
    ∧ renderInlineChecked 2 (str "a`") 0 [] = some (str "a`")
    ∧ renderInlineChecked 3 (str "***") 0 [] = some (str "***")
    ∧ renderInlineChecked 4 (str "**x*") 0 [] = some (str "**x*") := by
  refine ⟨?_, ?_, ?_, by decide, by decide, by decide, by decide, by decide⟩
  · rw [renderInlineChecked_eq s.length s 0 [] (by omega)]
    rfl
  · intro i e h
    have hbd := boldAt_bound s i e h
    have hl := slice_length_le s (i + 2) e
    omega
  · intro i e h
    have hcd := codeAt_bound s i e h
    omega

end ShellAI
